import Mathlib

set_option maxHeartbeats 1000000

/-! Shallow embedding of the bubble-hierarchy core of
`src/components/FinanceSigmaGraph.tsx` (its `NewBubbleHierarchy` half):
the flat-list-to-tree builder `nestFlatToTree` and the radial packer
`computeBubblePackingLayout`.  JS numbers are modelled as exact
rationals for the discrete tree data and as real numbers for the
geometry. -/

/-- Source type `FlatItem`: one flat input record
`{ name, level, parent?, source?, value? }`. -/
structure FlatItem where
  name : String
  level : ℚ
  parent : Option String
  source : Option String
  value : Option ℚ
deriving DecidableEq, Repr

/-- Source type `TreeNode`: `{ name, level?, parent?, source?, value?, children? }`.
The `children` field is modelled as a plain list (the code reads it only
through `node.children || []` / `c.children?.length ?? 0`, which collapses
`undefined` and `[]`). -/
inductive TreeNode : Type where
  | mk : String → Option ℚ → Option String → Option String → Option ℚ → List TreeNode → TreeNode

/-- Field accessor for `TreeNode.name`. -/
def TreeNode.name : TreeNode → String
  | .mk n _ _ _ _ _ => n

/-- Field accessor for `TreeNode.level`. -/
def TreeNode.level : TreeNode → Option ℚ
  | .mk _ l _ _ _ _ => l

/-- Field accessor for `TreeNode.parent`. -/
def TreeNode.parent : TreeNode → Option String
  | .mk _ _ p _ _ _ => p

/-- Field accessor for `TreeNode.source`. -/
def TreeNode.source : TreeNode → Option String
  | .mk _ _ _ s _ _ => s

/-- Field accessor for `TreeNode.value`. -/
def TreeNode.value : TreeNode → Option ℚ
  | .mk _ _ _ _ v _ => v

/-- Field accessor for `TreeNode.children`. -/
def TreeNode.children : TreeNode → List TreeNode
  | .mk _ _ _ _ _ c => c

/-- The scalar fields of one tree node (everything except `children`);
used to observe which nodes a built tree contains. -/
structure NodeData where
  name : String
  level : Option ℚ
  parent : Option String
  source : Option String
  value : Option ℚ
deriving DecidableEq, Repr

mutual

/-- Preorder list of the scalar data of every node of a tree. -/
def treeData : TreeNode → List NodeData
  | .mk n l p s v cs => ⟨n, l, p, s, v⟩ :: forestData cs

/-- Preorder list of the scalar data of every node of a forest. -/
def forestData : List TreeNode → List NodeData
  | [] => []
  | t :: ts => treeData t ++ forestData ts

end

/-- The scalar data of the `TreeNode` that `nestFlatToTree` creates for a
record (`{ ...it, children: [] }` - the record's own fields, with `level`
present). -/
def itemData (it : FlatItem) : NodeData :=
  ⟨it.name, some it.level, it.parent, it.source, it.value⟩

/-- The scalar data of the synthetic root node `{ name: "root", children: roots }`. -/
def rootData : NodeData :=
  ⟨"root", none, none, none, none⟩

/-- One `byName.set(it.name, { ...it, children: [] })` step.  A JS `Map`
keeps the original insertion position when an existing key is overwritten,
so the value list is updated in place for a present key and appended
otherwise. -/
def mapSet (m : List FlatItem) (it : FlatItem) : List FlatItem :=
  if m.any (fun e => e.name = it.name) then
    m.map (fun e => if e.name = it.name then it else e)
  else m ++ [it]

/-- The first loop of `nestFlatToTree`: validate each record's `level`
(throwing on the first record with `level < 1 || level > 6`) and build the
`byName` map.  The accumulator is the list of map values in insertion
order. -/
def buildByName (acc : List FlatItem) : List FlatItem → Except String (List FlatItem)
  | [] => .ok acc
  | it :: rest =>
    if it.level < 1 ∨ 6 < it.level then
      .error ("Level out of range (1..6) for " ++ it.name ++ " - got " ++ toString it.level)
    else buildByName (mapSet acc it) rest

/-- `byName.get p` on the map value list. -/
def lookupName (m : List FlatItem) (p : String) : Option FlatItem :=
  m.find? (fun e => e.name = p)

/-- Where the second loop of `nestFlatToTree` pushes the node of entry `e`:
`none` means the `roots` array (level 1, absent/falsy `parent`, or an
unresolved parent name), `some p` means the children array of the entry
named `p`.  The JS guard `node.parent ? ... : undefined` is a truthiness
test, so the empty string behaves like an absent parent. -/
def attachTarget (m : List FlatItem) (e : FlatItem) : Option String :=
  if e.level = 1 then none
  else
    match e.parent with
    | none => none
    | some p =>
      if p = "" then none
      else
        match lookupName m p with
        | some _ => some p
        | none => none

/-- The entries pushed (in `byName` iteration order) into the children
array belonging to target `t`. -/
def childrenOf (m : List FlatItem) (t : Option String) : List FlatItem :=
  m.filter (fun e => attachTarget m e = t)

/-- The tree node built for entry `e`: its children are the entries
attached to `e`, recursively.  The mutation-based JS construction yields,
for every node reachable from the returned root, exactly this unfolding;
`fuel` bounds the recursion depth and `fuel = m.length` is enough because
a chain of attached entries reachable from the root never repeats an
entry. -/
def buildNode (m : List FlatItem) : Nat → FlatItem → TreeNode
  | 0, e => .mk e.name (some e.level) e.parent e.source e.value []
  | fuel + 1, e =>
      .mk e.name (some e.level) e.parent e.source e.value
        ((childrenOf m (some e.name)).map (buildNode m fuel))

/-- Source function `nestFlatToTree` (FinanceSigmaGraph.tsx lines 396-417):
validates levels, indexes records by name (last write wins), resolves each
node's parent by name, and returns the synthetic root owning the `roots`
array. -/
def nestFlatToTree (items : List FlatItem) : Except String TreeNode :=
  (buildByName [] items).map (fun m =>
    .mk "root" none none none none ((childrenOf m none).map (buildNode m m.length)))

/-- Convenience: the names of the direct children of a tree node. -/
def childNames (t : TreeNode) : List String :=
  t.children.map TreeNode.name

/-! ### Basic lemmas about the `byName` map -/

theorem find?_map_replace_miss (it : FlatItem) (k : String) (hk : k ≠ it.name) :
    ∀ xs : List FlatItem,
      (xs.map (fun e => if e.name = it.name then it else e)).find? (fun e => e.name = k) =
        xs.find? (fun e => e.name = k) := by
  intro xs
  induction xs with
  | nil => rfl
  | cons x xs ih =>
      by_cases hx : x.name = it.name
      · have hxk : (x.name = k) = False := by
          simp [hx]; exact fun h => hk h.symm
        simp only [List.map_cons, List.find?_cons, if_pos hx]
        have h1 : (it.name = k) = False := by
          simp; exact fun h => hk h.symm
        simp [h1, hxk, ih]
      · simp only [List.map_cons, List.find?_cons, if_neg hx]
        by_cases hxk : x.name = k
        · simp [hxk]
        · simp [hxk, ih]

theorem find?_map_replace_hit (it : FlatItem) :
    ∀ xs : List FlatItem, (xs.any (fun e => e.name = it.name)) = true →
      (xs.map (fun e => if e.name = it.name then it else e)).find?
          (fun e => e.name = it.name) = some it := by
  intro xs
  induction xs with
  | nil => simp
  | cons x xs ih =>
      intro h
      by_cases hx : x.name = it.name
      · simp [hx]
      · simp only [List.any_cons, Bool.or_eq_true, List.any_eq_true] at h
        rcases h with h | h
        · exact absurd (of_decide_eq_true h) hx
        · simp only [List.map_cons, if_neg hx, List.find?_cons]
          have : (decide (x.name = it.name)) = false := decide_eq_false hx
          rw [this]
          exact ih (List.any_eq_true.mpr h)

theorem lookupName_mapSet (m : List FlatItem) (it : FlatItem) (k : String) :
    lookupName (mapSet m it) k = if k = it.name then some it else lookupName m k := by
  unfold mapSet lookupName
  by_cases hmem : (m.any (fun e => e.name = it.name)) = true
  · rw [if_pos hmem]
    by_cases hk : k = it.name
    · rw [if_pos hk, hk]
      exact find?_map_replace_hit it m hmem
    · rw [if_neg hk]
      exact find?_map_replace_miss it k hk m
  · rw [if_neg hmem]
    rw [List.find?_append]
    by_cases hk : k = it.name
    · rw [if_pos hk]
      have hnone : m.find? (fun e => decide (e.name = k)) = none := by
        rw [List.find?_eq_none]
        intro x hx hxn
        exact hmem (List.any_eq_true.mpr ⟨x, hx, by
          have := of_decide_eq_true hxn
          exact decide_eq_true (this.trans hk)⟩)
      rw [hnone]
      simp [hk]
    · rw [if_neg hk]
      cases hh : m.find? (fun x => decide (x.name = k)) with
      | some e => simp [hh]
      | none =>
          have : (decide (it.name = k)) = false := decide_eq_false (fun h => hk h.symm)
          simp [this]

/-- Looking a name up in the finished `byName` map returns the last input
record carrying that name. -/
theorem lookup_foldl_mapSet (items : List FlatItem) : ∀ (acc : List FlatItem) (k : String),
    lookupName (items.foldl mapSet acc) k =
      match items.reverse.find? (fun x => x.name = k) with
      | some e => some e
      | none => lookupName acc k := by
  induction items with
  | nil => intro acc k; rfl
  | cons it rest ih =>
      intro acc k
      simp only [List.foldl_cons, List.reverse_cons, List.find?_append]
      rw [ih]
      cases hr : rest.reverse.find? (fun x => decide (x.name = k)) with
      | some e => simp [hr]
      | none =>
          simp only [hr, Option.none_orElse]
          rw [lookupName_mapSet]
          by_cases hk : k = it.name
          · have : (decide (it.name = k)) = true := decide_eq_true hk.symm
            simp [this, hk]
          · have : (decide (it.name = k)) = false := decide_eq_false (fun h => hk h.symm)
            simp [this, hk]

theorem mem_mapSet (m : List FlatItem) (it e : FlatItem) :
    e ∈ mapSet m it → e ∈ m ∨ e = it := by
  unfold mapSet
  by_cases h : (m.any (fun x => x.name = it.name)) = true
  · rw [if_pos h]
    intro hm
    obtain ⟨x, hx, hxe⟩ := List.mem_map.mp hm
    by_cases hxn : x.name = it.name
    · right; rw [if_pos hxn] at hxe; exact hxe.symm
    · left; rw [if_neg hxn] at hxe; exact hxe ▸ hx
  · rw [if_neg h]
    intro hm
    rcases List.mem_append.mp hm with h1 | h1
    · exact Or.inl h1
    · exact Or.inr (List.mem_singleton.mp h1)

theorem mem_foldl_mapSet (items : List FlatItem) : ∀ (acc : List FlatItem) (e : FlatItem),
    e ∈ items.foldl mapSet acc → e ∈ acc ∨ e ∈ items := by
  induction items with
  | nil => intro acc e h; exact Or.inl h
  | cons it rest ih =>
      intro acc e h
      rcases ih (mapSet acc it) e h with h1 | h1
      · rcases mem_mapSet acc it e h1 with h2 | h2
        · exact Or.inl h2
        · exact Or.inr (h2 ▸ List.mem_cons_self it rest)
      · exact Or.inr (List.mem_cons_of_mem it h1)

/-- The names in the `byName` map stay pairwise distinct. -/
theorem keys_nodup_mapSet (m : List FlatItem) (it : FlatItem)
    (h : (m.map FlatItem.name).Nodup) : ((mapSet m it).map FlatItem.name).Nodup := by
  unfold mapSet
  by_cases hmem : (m.any (fun x => x.name = it.name)) = true
  · rw [if_pos hmem]
    have : (m.map (fun e => if e.name = it.name then it else e)).map FlatItem.name =
        m.map FlatItem.name := by
      rw [List.map_map]
      apply List.map_congr_left
      intro e _
      by_cases he : e.name = it.name
      · simp [Function.comp, he]
      · simp [Function.comp, he]
    rw [this]; exact h
  · rw [if_neg hmem]
    rw [List.map_append]
    simp only [List.map_cons, List.map_nil]
    apply List.Nodup.append h (List.nodup_singleton _)
    intro a ha hb
    simp only [List.mem_singleton] at hb
    obtain ⟨x, hx, hxn⟩ := List.mem_map.mp ha
    apply hmem
    apply List.any_eq_true.mpr
    exact ⟨x, hx, by simp [hxn, hb]⟩

theorem keys_nodup_foldl_mapSet (items : List FlatItem) : ∀ (acc : List FlatItem),
    (acc.map FlatItem.name).Nodup → ((items.foldl mapSet acc).map FlatItem.name).Nodup := by
  induction items with
  | nil => intro acc h; exact h
  | cons it rest ih =>
      intro acc h
      exact ih (mapSet acc it) (keys_nodup_mapSet acc it h)

/-- With pairwise-distinct input names the `byName` map is the input list
itself. -/
theorem foldl_mapSet_eq_append (items : List FlatItem) : ∀ (acc : List FlatItem),
    (∀ it ∈ items, ∀ e ∈ acc, e.name ≠ it.name) →
    (items.map FlatItem.name).Nodup →
    items.foldl mapSet acc = acc ++ items := by
  induction items with
  | nil => intro acc _ _; simp
  | cons it rest ih =>
      intro acc hdisj hnd
      have habs : (acc.any (fun x => x.name = it.name)) ≠ true := by
        intro h
        obtain ⟨x, hx, hxn⟩ := List.any_eq_true.mp h
        exact hdisj it (List.mem_cons_self it rest) x hx (by simpa using hxn)
      have hstep : mapSet acc it = acc ++ [it] := by
        unfold mapSet
        rw [if_neg habs]
      simp only [List.foldl_cons, hstep]
      rw [ih (acc ++ [it])]
      · simp
      · intro x hx e he
        rcases List.mem_append.mp he with h1 | h1
        · exact hdisj x (List.mem_cons_of_mem it hx) e h1
        · rw [List.mem_singleton.mp h1]
          simp only [List.map_cons, List.nodup_cons] at hnd
          intro hc
          exact hnd.1 (hc ▸ List.mem_map_of_mem FlatItem.name hx)
      · simp only [List.map_cons, List.nodup_cons] at hnd
        exact hnd.2

/-! ### Validation behaviour of `buildByName` -/

theorem buildByName_ok (items : List FlatItem) : ∀ (acc : List FlatItem),
    (∀ it ∈ items, ¬(it.level < 1 ∨ 6 < it.level)) →
    buildByName acc items = .ok (items.foldl mapSet acc) := by
  induction items with
  | nil => intro acc _; rfl
  | cons it rest ih =>
      intro acc h
      have hit := h it (List.mem_cons_self it rest)
      unfold buildByName
      rw [if_neg hit]
      exact ih (mapSet acc it) (fun x hx => h x (List.mem_cons_of_mem it hx))

theorem buildByName_error_iff (items : List FlatItem) : ∀ (acc : List FlatItem),
    (∃ msg, buildByName acc items = .error msg) ↔
      ∃ it ∈ items, it.level < 1 ∨ 6 < it.level := by
  induction items with
  | nil =>
      intro acc
      constructor
      · rintro ⟨msg, h⟩; exact absurd h (by simp [buildByName])
      · rintro ⟨it, h, _⟩; exact absurd h (List.not_mem_nil it)
  | cons it rest ih =>
      intro acc
      by_cases hbad : it.level < 1 ∨ 6 < it.level
      · constructor
        · intro _; exact ⟨it, List.mem_cons_self it rest, hbad⟩
        · intro _
          refine ⟨"Level out of range (1..6) for " ++ it.name ++ " - got " ++ toString it.level, ?_⟩
          unfold buildByName
          rw [if_pos hbad]
      · constructor
        · intro h
          unfold buildByName at h
          rw [if_neg hbad] at h
          obtain ⟨x, hx, hxbad⟩ := (ih (mapSet acc it)).mp h
          exact ⟨x, List.mem_cons_of_mem it hx, hxbad⟩
        · rintro ⟨x, hx, hxbad⟩
          rcases List.mem_cons.mp hx with h1 | h1
          · exact absurd (h1 ▸ hxbad) hbad
          · unfold buildByName
            rw [if_neg hbad]
            exact (ih (mapSet acc it)).mpr ⟨x, h1, hxbad⟩

/-- C4: `nestFlatToTree` raises the validation error if and only if some
input record's `level` lies outside `[1, 6]`; on inputs whose levels are
all in range it returns a tree normally. -/
theorem C4_validation_error_iff (items : List FlatItem) :
    ((∃ msg, nestFlatToTree items = .error msg) ↔
      ∃ it ∈ items, it.level < 1 ∨ 6 < it.level) ∧
    ((∀ it ∈ items, 1 ≤ it.level ∧ it.level ≤ 6) → ∃ t, nestFlatToTree items = .ok t) := by
  constructor
  · unfold nestFlatToTree
    cases h : buildByName [] items with
    | error msg =>
        simp only [h, Except.map]
        rw [← buildByName_error_iff items []]
        simp [h]
    | ok m =>
        simp only [h, Except.map]
        rw [← buildByName_error_iff items []]
        simp [h]
  · intro h
    unfold nestFlatToTree
    rw [buildByName_ok items [] (fun it hit => by
      have := h it hit
      push_neg
      exact ⟨this.1, this.2⟩)]
    exact ⟨_, rfl⟩

/-- Witness for the conditional half of C4 at a concrete valid input. -/
theorem C4_validation_error_iff_witness :
    (∀ it ∈ [(⟨"K", 1, none, none, none⟩ : FlatItem)], 1 ≤ it.level ∧ it.level ≤ 6) ∧
      ∃ t, nestFlatToTree [(⟨"K", 1, none, none, none⟩ : FlatItem)] = .ok t :=
  ⟨by decide, (C4_validation_error_iff [⟨"K", 1, none, none, none⟩]).2 (by decide)⟩

/-! ### C6: unresolved parents fall back to the root -/

/-- Name of every node built for an entry. -/
theorem buildNode_name (m : List FlatItem) (fuel : Nat) (e : FlatItem) :
    (buildNode m fuel e).name = e.name := by
  cases fuel with
  | zero => rfl
  | succ f => rfl

theorem lookup_foldl_mapSet_nil (items : List FlatItem) (k : String) :
    lookupName (items.foldl mapSet []) k = items.reverse.find? (fun x => x.name = k) := by
  rw [lookup_foldl_mapSet items [] k]
  cases h : items.reverse.find? (fun x => decide (x.name = k)) with
  | some e => rfl
  | none => rfl

/-- An input sequence on which C6 as stated fails: the first record
`{name:"A", level:2, parent:"Missing"}` has `level > 1` and a parent
matching no record's name, and the build succeeds, yet the synthetic
root's only child is `B` - the later record named `A` overwrote the
earlier one in `byName` and was attached under `B`, so no direct child of
the root is named `A`. -/
def c6Input : List FlatItem :=
  [⟨"A", 2, some "Missing", none, none⟩,
   ⟨"B", 1, none, none, none⟩,
   ⟨"A", 2, some "B", none, none⟩]

/-- Counterexample to C6 as stated: the record `c6Input[0]` has level `2 > 1`
and a `parent` (`"Missing"`) matching no record's name, but the built tree's
root has children `["B"]` only - the record's node is not a direct child of
the root. -/
theorem C6_counterexample :
    (⟨"A", 2, some "Missing", none, none⟩ : FlatItem) ∈ c6Input ∧
    (1 : ℚ) < 2 ∧
    (∀ x ∈ c6Input, x.name ≠ "Missing") ∧
    (nestFlatToTree c6Input).map childNames = Except.ok ["B"] := by
  refine ⟨by decide, by norm_num, by decide, ?_⟩
  rfl

/-- C6 amended: a record with `level > 1` whose `parent` matches no record's
name is attached as a direct child of the synthetic root, provided every
record's level is in `[1,6]` (otherwise the build throws) and no later
record reuses the record's name (otherwise the later record's node replaces
this one in `byName`). -/
theorem C6_unresolved_parent_at_root (items : List FlatItem) (it : FlatItem)
    (hval : ∀ x ∈ items, ¬(x.level < 1 ∨ 6 < x.level))
    (hlevel : 1 < it.level)
    (hnomatch : ∀ p, it.parent = some p → ∀ x ∈ items, x.name ≠ p)
    (hlast : items.reverse.find? (fun x => x.name = it.name) = some it) :
    ∃ t, nestFlatToTree items = .ok t ∧ ∃ c ∈ t.children, c.name = it.name := by
  have hok : nestFlatToTree items =
      .ok (.mk "root" none none none none
        ((childrenOf (items.foldl mapSet []) none).map
          (buildNode (items.foldl mapSet []) (items.foldl mapSet []).length))) := by
    unfold nestFlatToTree
    rw [buildByName_ok items [] hval]
    rfl
  set m := items.foldl mapSet [] with hm
  have hitm : it ∈ m := by
    have : lookupName m it.name = some it := by
      rw [hm, lookup_foldl_mapSet_nil items it.name]; exact hlast
    exact List.mem_of_find?_eq_some this
  have hattach : attachTarget m it = none := by
    unfold attachTarget
    rw [if_neg (by intro h; rw [h] at hlevel; exact lt_irrefl 1 hlevel)]
    cases hp : it.parent with
    | none => rfl
    | some p =>
        show (if p = "" then none
          else match lookupName m p with
            | some _ => some p
            | none => none) = (none : Option String)
        by_cases hpe : p = ""
        · rw [if_pos hpe]
        · rw [if_neg hpe]
          cases hl : lookupName m p with
          | none => rfl
          | some e =>
              exfalso
              have hem : e ∈ m := List.mem_of_find?_eq_some hl
              have hen : e.name = p := by
                have := List.find?_some hl
                exact of_decide_eq_true this
              have : e ∈ items := by
                rcases mem_foldl_mapSet items [] e (hm ▸ hem) with h1 | h1
                · exact absurd h1 (List.not_mem_nil e)
                · exact h1
              exact hnomatch p hp e this hen
  have hchild : it ∈ childrenOf m none := by
    unfold childrenOf
    rw [List.mem_filter]
    exact ⟨hitm, by simp [hattach]⟩
  refine ⟨_, hok, ?_⟩
  refine ⟨buildNode m m.length it, ?_, buildNode_name m m.length it⟩
  show buildNode m m.length it ∈ (TreeNode.mk "root" none none none none
    ((childrenOf m none).map (buildNode m m.length))).children
  exact List.mem_map_of_mem (buildNode m m.length) hchild

/-- Witness for C6 amended at the concrete input `[{name:"A", level:2,
parent:"Missing"}]`: the build succeeds and `A` is a direct child of root. -/
theorem C6_unresolved_parent_at_root_witness :
    (∀ x ∈ [(⟨"A", 2, some "Missing", none, none⟩ : FlatItem)],
        ¬(x.level < 1 ∨ 6 < x.level)) ∧
    ∃ t, nestFlatToTree [(⟨"A", 2, some "Missing", none, none⟩ : FlatItem)] = .ok t ∧
      ∃ c ∈ t.children, c.name = (⟨"A", 2, some "Missing", none, none⟩ : FlatItem).name :=
  ⟨by decide,
    C6_unresolved_parent_at_root [⟨"A", 2, some "Missing", none, none⟩]
      ⟨"A", 2, some "Missing", none, none⟩
      (by decide) (by norm_num) (by decide) (by decide)⟩

/-! ### Attachment chains

The second loop of `nestFlatToTree` attaches every entry to exactly one
target (the roots array or one other entry), so the entries form a
functional graph.  A node of that graph ends up in the returned tree
exactly when its chain of attachments reaches the roots array; entries on
a parent cycle are silently dropped from the reachable tree. -/

/-- The entry that entry `e` is attached under, if any. -/
def upEntry (m : List FlatItem) (e : FlatItem) : Option FlatItem :=
  match attachTarget m e with
  | none => none
  | some p => lookupName m p

/-- Iterated `upEntry`: the ancestor of `e` that is `k` attachment steps up. -/
def upIter (m : List FlatItem) : Nat → FlatItem → Option FlatItem
  | 0, e => some e
  | k + 1, e =>
    match upEntry m e with
    | none => none
    | some pe => upIter m k pe

/-- `x` lies (strictly) below target `t` in the attachment graph, hitting
`t` after at most `f` attachment steps. -/
def descWithin (m : List FlatItem) (f : Nat) (t : Option String) (x : FlatItem) : Bool :=
  (List.range f).any (fun j =>
    match upIter m j x with
    | some c => attachTarget m c = t
    | none => false)

/-- The final `byName` map (value list in insertion order) of a fully
validated input. -/
def finalMap (items : List FlatItem) : List FlatItem :=
  items.foldl mapSet []

/-- Decidable check that an entry's attachment chain reaches the roots
array (so its node is reachable from the synthetic root). -/
def reachesRoot (m : List FlatItem) (x : FlatItem) : Bool :=
  descWithin m (m.length + 1) none x

/-- Propositional form: the attachment chain of `e` terminates at the
roots array. -/
inductive Reaches (m : List FlatItem) : FlatItem → Prop where
  | root (e : FlatItem) (h : upEntry m e = none) : Reaches m e
  | step (e pe : FlatItem) (h : upEntry m e = some pe) (hp : Reaches m pe) : Reaches m e

theorem upIter_add (m : List FlatItem) (a : Nat) : ∀ (b : Nat) (x : FlatItem),
    upIter m (a + b) x = (upIter m a x).bind (upIter m b) := by
  induction a with
  | zero => intro b x; simp [upIter]
  | succ a ih =>
      intro b x
      have : a + 1 + b = (a + b) + 1 := by omega
      rw [this]
      show (match upEntry m x with
        | none => none
        | some pe => upIter m (a + b) pe) =
        ((match upEntry m x with
          | none => none
          | some pe => upIter m a pe).bind (upIter m b))
      cases h : upEntry m x with
      | none => rfl
      | some pe => exact ih b pe

theorem upIter_succ_right (m : List FlatItem) (k : Nat) (x : FlatItem) :
    upIter m (k + 1) x = (upIter m k x).bind (upEntry m) := by
  have := upIter_add m k 1 x
  rw [this]
  cases h : upIter m k x with
  | none => rfl
  | some y =>
      show upIter m 1 y = upEntry m y
      show (match upEntry m y with
        | none => none
        | some pe => upIter m 0 pe) = upEntry m y
      cases upEntry m y with
      | none => rfl
      | some z => rfl

theorem upIter_none_mono (m : List FlatItem) (k s : Nat) (x : FlatItem)
    (h : upIter m k x = none) : upIter m (k + s) x = none := by
  rw [upIter_add m k s x, h]
  rfl

/-- An entry whose chain reaches the roots array is on no attachment cycle. -/
theorem Reaches.no_cycle (m : List FlatItem) (e : FlatItem) (he : Reaches m e) :
    ∀ d : Nat, upIter m (d + 1) e ≠ some e := by
  induction he with
  | root e h =>
      intro d hcyc
      have hnone : upIter m (d + 1) e = none := by
        show (match upEntry m e with
          | none => none
          | some pe => upIter m d pe) = none
        rw [h]
      rw [hnone] at hcyc
      exact Option.noConfusion hcyc
  | step e pe h hp ih =>
      intro d hcyc
      have h1 : upIter m d pe = some e := by
        have : upIter m (d + 1) e = upIter m d pe := by
          show (match upEntry m e with
            | none => none
            | some x => upIter m d x) = upIter m d pe
          rw [h]
        rw [← this]; exact hcyc
      have h2 : upIter m (d + 1) pe = some pe := by
        rw [upIter_succ_right, h1]
        show upEntry m e = some pe
        exact h
      exact ih d h2
  

/-- Hitting times of a reachable entry along a chain are unique. -/
theorem upIter_unique (m : List FlatItem) (e : FlatItem) (he : Reaches m e) :
    ∀ (k k' : Nat) (x : FlatItem), upIter m k x = some e → upIter m k' x = some e → k = k' := by
  have key : ∀ (k d : Nat) (x : FlatItem),
      upIter m k x = some e → upIter m (k + d) x = some e → d = 0 := by
    intro k d x h1 h2
    by_contra hd
    have hsplit := upIter_add m k d x
    rw [h1] at hsplit
    simp only [Option.some_bind] at hsplit
    have hcyc : upIter m d e = some e := by rw [← hsplit]; exact h2
    cases d with
    | zero => exact hd rfl
    | succ d0 => exact Reaches.no_cycle m e he d0 hcyc
  intro k k' x h1 h2
  rcases Nat.le_total k k' with h | h
  · obtain ⟨d, rfl⟩ := Nat.exists_eq_add_of_le h
    have := key k d x h1 h2
    omega
  · obtain ⟨d, rfl⟩ := Nat.exists_eq_add_of_le h
    have := key k' d x h2 h1
    omega

/-- With distinct names, looking up a member's name returns that member. -/
theorem lookupName_self (m : List FlatItem) (hnd : (m.map FlatItem.name).Nodup)
    (c : FlatItem) (hc : c ∈ m) : lookupName m c.name = some c := by
  induction m with
  | nil => cases hc
  | cons x xs ih =>
      simp only [List.map_cons, List.nodup_cons] at hnd
      unfold lookupName
      rw [List.find?_cons]
      rcases List.mem_cons.mp hc with h | h
      · rw [h]
        simp
      · have hxc : x.name ≠ c.name := by
          intro hcontra
          exact hnd.1 (hcontra ▸ List.mem_map_of_mem FlatItem.name h)
        have hdec : (decide (x.name = c.name)) = false := decide_eq_false hxc
        rw [hdec]
        exact ih hnd.2 h

theorem name_inj_on (m : List FlatItem) (hnd : (m.map FlatItem.name).Nodup) :
    ∀ x ∈ m, ∀ y ∈ m, x.name = y.name → x = y :=
  List.inj_on_of_nodup_map hnd

theorem lookupName_name (m : List FlatItem) (p : String) (pe : FlatItem)
    (h : lookupName m p = some pe) : pe.name = p := by
  unfold lookupName at h
  have := List.find?_some h
  simpa using this

theorem lookupName_mem (m : List FlatItem) (p : String) (pe : FlatItem)
    (h : lookupName m p = some pe) : pe ∈ m := by
  unfold lookupName at h
  exact List.mem_of_find?_eq_some h

theorem attachTarget_some_lookup (m : List FlatItem) (e : FlatItem) (p : String)
    (h : attachTarget m e = some p) :
    ∃ pe, lookupName m p = some pe ∧ pe.name = p ∧ pe ∈ m := by
  unfold attachTarget at h
  by_cases h1 : e.level = 1
  · rw [if_pos h1] at h; exact Option.noConfusion h
  · rw [if_neg h1] at h
    cases hp : e.parent with
    | none => rw [hp] at h; exact Option.noConfusion h
    | some q =>
        rw [hp] at h
        have h2 : (if q = "" then none
          else match lookupName m q with
            | some _ => some q
            | none => none) = some p := h
        by_cases hq : q = ""
        · rw [if_pos hq] at h2; exact Option.noConfusion h2
        · rw [if_neg hq] at h2
          cases hl : lookupName m q with
          | none => rw [hl] at h2; exact Option.noConfusion h2
          | some pe =>
              rw [hl] at h2
              have hqp : q = p := Option.some.inj h2
              subst hqp
              exact ⟨pe, hl, lookupName_name m q pe hl, lookupName_mem m q pe hl⟩

theorem upEntry_none_of_attach_none (m : List FlatItem) (e : FlatItem)
    (h : attachTarget m e = none) : upEntry m e = none := by
  unfold upEntry; rw [h]

theorem upEntry_of_attach_some (m : List FlatItem) (e : FlatItem) (p : String)
    (h : attachTarget m e = some p) :
    ∃ pe, upEntry m e = some pe ∧ pe.name = p ∧ pe ∈ m := by
  obtain ⟨pe, hl, hn, hm⟩ := attachTarget_some_lookup m e p h
  refine ⟨pe, ?_, hn, hm⟩
  unfold upEntry
  rw [h]
  exact hl

theorem attach_of_upEntry_some (m : List FlatItem) (e pe : FlatItem)
    (h : upEntry m e = some pe) : attachTarget m e = some pe.name := by
  unfold upEntry at h
  cases ha : attachTarget m e with
  | none => rw [ha] at h; exact Option.noConfusion h
  | some p =>
      rw [ha] at h
      have h2 : lookupName m p = some pe := h
      have : pe.name = p := lookupName_name m p pe h2
      rw [this]

theorem upEntry_mem (m : List FlatItem) (e pe : FlatItem) (h : upEntry m e = some pe) :
    pe ∈ m := by
  unfold upEntry at h
  cases ha : attachTarget m e with
  | none => rw [ha] at h; exact Option.noConfusion h
  | some p =>
      rw [ha] at h
      have h2 : lookupName m p = some pe := h
      exact lookupName_mem m p pe h2

/-- With distinct names, attaching to the name of a member entry means
being attached under exactly that entry. -/
theorem upEntry_eq_of_attach_name (m : List FlatItem) (hnd : (m.map FlatItem.name).Nodup)
    (e pe : FlatItem) (hpe : pe ∈ m) (h : attachTarget m e = some pe.name) :
    upEntry m e = some pe := by
  unfold upEntry
  rw [h]
  exact lookupName_self m hnd pe hpe

theorem descWithin_iff (m : List FlatItem) (f : Nat) (t : Option String) (x : FlatItem) :
    descWithin m f t x = true ↔
      ∃ j, j < f ∧ ∃ c, upIter m j x = some c ∧ attachTarget m c = t := by
  unfold descWithin
  rw [List.any_eq_true]
  constructor
  · rintro ⟨j, hj, hsat⟩
    rw [List.mem_range] at hj
    cases hc : upIter m j x with
    | none => rw [hc] at hsat; exact absurd hsat (by simp)
    | some c =>
        rw [hc] at hsat
        exact ⟨j, hj, c, hc, of_decide_eq_true hsat⟩
  · rintro ⟨j, hj, c, hc, hat⟩
    refine ⟨j, List.mem_range.mpr hj, ?_⟩
    rw [hc]
    exact decide_eq_true hat

/-- Targets for which hitting times are well behaved: the roots array, or
an entry of the map whose own chain reaches the roots array. -/
def TargetOK (m : List FlatItem) : Option String → Prop
  | none => True
  | some nm => ∃ e, lookupName m nm = some e ∧ Reaches m e

theorem hit_unique (m : List FlatItem) (t : Option String) (hok : TargetOK m t)
    (x : FlatItem) : ∀ (j j' : Nat) (c c' : FlatItem),
    upIter m j x = some c → attachTarget m c = t →
    upIter m j' x = some c' → attachTarget m c' = t → j = j' := by
  cases t with
  | some nm =>
      obtain ⟨e, hl, he⟩ := hok
      intro j j' c c' h1 ha1 h2 ha2
      have step : ∀ (i : Nat) (d : FlatItem), upIter m i x = some d →
          attachTarget m d = some nm → upIter m (i + 1) x = some e := by
        intro i d hi had
        rw [upIter_succ_right, hi]
        simp only [Option.some_bind]
        unfold upEntry
        rw [had]
        exact hl
      have e1 := step j c h1 ha1
      have e2 := step j' c' h2 ha2
      have := upIter_unique m e he (j + 1) (j' + 1) x e1 e2
      omega
  | none =>
      intro j j' c c' h1 ha1 h2 ha2
      have dead : ∀ (i : Nat) (d : FlatItem), upIter m i x = some d →
          attachTarget m d = none → upIter m (i + 1) x = none := by
        intro i d hi had
        rw [upIter_succ_right, hi]
        simp only [Option.some_bind]
        exact upEntry_none_of_attach_none m d had
      have key : ∀ (a b : Nat) (u v : FlatItem), upIter m a x = some u →
          attachTarget m u = none → upIter m b x = some v → b ≤ a := by
        intro a b u v hu hau hv
        by_contra hab
        push_neg at hab
        have h1' : upIter m (a + 1) x = none := dead a u hu hau
        obtain ⟨s, hs⟩ : ∃ s, b = (a + 1) + s := ⟨b - (a + 1), by omega⟩
        rw [hs] at hv
        rw [upIter_none_mono m (a + 1) s x h1'] at hv
        exact Option.noConfusion hv
      have hle1 := key j j' c c' h1 ha1 h2
      have hle2 := key j' j c' c h2 ha2 h1
      omega

/-- Every entry attached below a well-behaved target reaches the roots
array. -/
theorem reaches_child (m : List FlatItem) (t : Option String) (hok : TargetOK m t)
    (c : FlatItem) (hc : c ∈ childrenOf m t) : Reaches m c := by
  have hcm : c ∈ m ∧ attachTarget m c = t := by
    unfold childrenOf at hc
    have := List.mem_filter.mp hc
    exact ⟨this.1, of_decide_eq_true this.2⟩
  cases t with
  | none => exact Reaches.root c (upEntry_none_of_attach_none m c hcm.2)
  | some nm =>
      obtain ⟨e, hl, he⟩ := hok
      have : upEntry m c = some e := by
        unfold upEntry
        rw [hcm.2]
        exact hl
      exact Reaches.step c e this he

theorem childrenOf_mem (m : List FlatItem) (t : Option String) (c : FlatItem) :
    c ∈ childrenOf m t ↔ c ∈ m ∧ attachTarget m c = t := by
  unfold childrenOf
  rw [List.mem_filter]
  constructor
  · rintro ⟨h1, h2⟩; exact ⟨h1, of_decide_eq_true h2⟩
  · rintro ⟨h1, h2⟩; exact ⟨h1, decide_eq_true h2⟩

/-- Forward direction of the partition: a descendant of `t` within `f + 1`
steps is a child of `t` or a descendant of one of `t`'s children. -/
theorem partition_mem (m : List FlatItem) (hnd : (m.map FlatItem.name).Nodup)
    (t : Option String) (f : Nat) (x : FlatItem) :
    (x ∈ m ∧ descWithin m (f + 1) t x = true) ↔
      ∃ c ∈ childrenOf m t, x = c ∨ (x ∈ m ∧ descWithin m f (some c.name) x = true) := by
  constructor
  · rintro ⟨hxm, hdesc⟩
    obtain ⟨j, hj, c0, hc0, hat⟩ := (descWithin_iff m (f + 1) t x).mp hdesc
    cases j with
    | zero =>
        have hx0 : some x = some c0 := hc0
        have hx0e : x = c0 := Option.some.inj hx0
        refine ⟨x, (childrenOf_mem m t x).mpr ⟨hxm, ?_⟩, Or.inl rfl⟩
        rw [hx0e]
        exact hat
    | succ i =>
        rw [upIter_succ_right] at hc0
        cases hy : upIter m i x with
        | none => rw [hy] at hc0; exact absurd hc0 (by simp)
        | some y =>
            rw [hy] at hc0
            simp only [Option.some_bind] at hc0
            have hattY : attachTarget m y = some c0.name := attach_of_upEntry_some m y c0 hc0
            have hc0m : c0 ∈ m := upEntry_mem m y c0 hc0
            refine ⟨c0, (childrenOf_mem m t c0).mpr ⟨hc0m, hat⟩, Or.inr ⟨hxm, ?_⟩⟩
            exact (descWithin_iff m f (some c0.name) x).mpr ⟨i, by omega, y, hy, hattY⟩
  · rintro ⟨c, hc, hcase⟩
    obtain ⟨hcm, hcat⟩ := (childrenOf_mem m t c).mp hc
    rcases hcase with rfl | ⟨hxm, hdesc⟩
    · refine ⟨hcm, (descWithin_iff m (f + 1) t x).mpr ⟨0, by omega, x, rfl, hcat⟩⟩
    · refine ⟨hxm, ?_⟩
      obtain ⟨i, hi, y, hy, hyat⟩ := (descWithin_iff m f (some c.name) x).mp hdesc
      have hup : upEntry m y = some c := upEntry_eq_of_attach_name m hnd y c hcm hyat
      have hstep : upIter m (i + 1) x = some c := by
        rw [upIter_succ_right, hy]
        simp only [Option.some_bind]
        exact hup
      exact (descWithin_iff m (f + 1) t x).mpr ⟨i + 1, by omega, c, hstep, hcat⟩

/-- Any element of a child's branch has the child on its upward chain. -/
theorem branch_hit (m : List FlatItem) (hnd : (m.map FlatItem.name).Nodup)
    (t : Option String) (f : Nat) (c x : FlatItem) (hc : c ∈ childrenOf m t)
    (hx : x = c ∨ (x ∈ m ∧ descWithin m f (some c.name) x = true)) :
    ∃ j, upIter m j x = some c := by
  rcases hx with rfl | ⟨hxm, hdesc⟩
  · exact ⟨0, rfl⟩
  · obtain ⟨hcm, _⟩ := (childrenOf_mem m t c).mp hc
    obtain ⟨i, hi, y, hy, hyat⟩ := (descWithin_iff m f (some c.name) x).mp hdesc
    refine ⟨i + 1, ?_⟩
    rw [upIter_succ_right, hy]
    simp only [Option.some_bind]
    exact upEntry_eq_of_attach_name m hnd y c hcm hyat

/-- The branch partition of the descendants of a target, as a permutation. -/
theorem partition_perm (m : List FlatItem) (hnd : (m.map FlatItem.name).Nodup)
    (t : Option String) (hok : TargetOK m t) (f : Nat) :
    (m.filter (descWithin m (f + 1) t)).Perm
      ((childrenOf m t).flatMap (fun c => c :: m.filter (descWithin m f (some c.name)))) := by
  have hmnd : m.Nodup := List.Nodup.of_map FlatItem.name hnd
  apply List.perm_of_nodup_nodup_toFinset_eq
  · exact hmnd.filter _
  · rw [List.nodup_flatMap]
    constructor
    · intro c hc
      rw [List.nodup_cons]
      constructor
      · intro hmem
        have hmf := List.mem_filter.mp hmem
        obtain ⟨i, hi, y, hy, hyat⟩ :=
          (descWithin_iff m f (some c.name) c).mp hmf.2
        have hcm := ((childrenOf_mem m t c).mp hc).1
        have hcyc : upIter m (i + 1) c = some c := by
          rw [upIter_succ_right, hy]
          simp only [Option.some_bind]
          exact upEntry_eq_of_attach_name m hnd y c hcm hyat
        exact Reaches.no_cycle m c (reaches_child m t hok c hc) i hcyc
      · exact hmnd.filter _
    · have hcnd : (childrenOf m t).Nodup := hmnd.filter _
      refine List.Pairwise.imp_of_mem ?_ hcnd
      intro a b ha hb hab
      intro x hxa hxb
      have hxa2 : x = a ∨ (x ∈ m ∧ descWithin m f (some a.name) x = true) := by
        rcases List.mem_cons.mp hxa with h | h
        · exact Or.inl h
        · have := List.mem_filter.mp h
          exact Or.inr ⟨this.1, this.2⟩
      have hxb2 : x = b ∨ (x ∈ m ∧ descWithin m f (some b.name) x = true) := by
        rcases List.mem_cons.mp hxb with h | h
        · exact Or.inl h
        · have := List.mem_filter.mp h
          exact Or.inr ⟨this.1, this.2⟩
      obtain ⟨j, hj⟩ := branch_hit m hnd t f a x ha hxa2
      obtain ⟨j2, hj2⟩ := branch_hit m hnd t f b x hb hxb2
      have hat : attachTarget m a = t := ((childrenOf_mem m t a).mp ha).2
      have hbt : attachTarget m b = t := ((childrenOf_mem m t b).mp hb).2
      have hjj : j = j2 := hit_unique m t hok x j j2 a b hj hat hj2 hbt
      rw [hjj] at hj
      rw [hj] at hj2
      exact hab (Option.some.inj hj2)
  · apply Finset.ext
    intro a
    rw [List.mem_toFinset, List.mem_toFinset, List.mem_filter, List.mem_flatMap]
    constructor
    · rintro ⟨ham, hdesc⟩
      obtain ⟨c, hc, hcase⟩ := (partition_mem m hnd t f a).mp ⟨ham, hdesc⟩
      refine ⟨c, hc, ?_⟩
      rcases hcase with rfl | ⟨ham2, hd2⟩
      · exact List.mem_cons_self _ _
      · exact List.mem_cons_of_mem _ (List.mem_filter.mpr ⟨ham2, hd2⟩)
    · rintro ⟨c, hc, hmem⟩
      rcases List.mem_cons.mp hmem with h | hmem2
      · exact (partition_mem m hnd t f a).mpr ⟨c, hc, Or.inl h⟩
      · have hm := List.mem_filter.mp hmem2
        exact (partition_mem m hnd t f a).mpr ⟨c, hc, Or.inr ⟨hm.1, hm.2⟩⟩

theorem forestData_eq_flatMap (ts : List TreeNode) : forestData ts = ts.flatMap treeData := by
  induction ts with
  | nil => rfl
  | cons t ts ih =>
      show treeData t ++ forestData ts = _
      rw [ih]
      rfl

theorem flatMap_perm_congr {α β : Type} (l : List α) (f g : α → List β)
    (h : ∀ a ∈ l, (f a).Perm (g a)) : (l.flatMap f).Perm (l.flatMap g) := by
  induction l with
  | nil => exact List.Perm.refl _
  | cons x xs ih =>
      simp only [List.flatMap_cons]
      exact List.Perm.append (h x (List.mem_cons_self x xs))
        (ih (fun a ha => h a (List.mem_cons_of_mem x ha)))

/-- The nodes of the subtree built for a reachable entry `e` are exactly
`e` together with the entries whose attachment chain hits `e` within the
fuel bound, each exactly once. -/
theorem treeData_buildNode_perm (m : List FlatItem) (hnd : (m.map FlatItem.name).Nodup) :
    ∀ (f : Nat) (e : FlatItem), e ∈ m → Reaches m e →
      (treeData (buildNode m f e)).Perm
        (itemData e :: (m.filter (descWithin m f (some e.name))).map itemData) := by
  intro f
  induction f with
  | zero =>
      intro e hem hre
      have hfilter : m.filter (descWithin m 0 (some e.name)) = [] := by
        apply List.filter_eq_nil_iff.mpr
        intro a ha
        unfold descWithin
        simp
      rw [hfilter]
      exact List.Perm.refl _
  | succ f ih =>
      intro e hem hre
      have hTok : TargetOK m (some e.name) := ⟨e, lookupName_self m hnd e hem, hre⟩
      show (itemData e :: forestData ((childrenOf m (some e.name)).map (buildNode m f))).Perm _
      apply List.Perm.cons
      rw [forestData_eq_flatMap, List.flatMap_map]
      have step1 : ((childrenOf m (some e.name)).flatMap
          (fun c => treeData (buildNode m f c))).Perm
          ((childrenOf m (some e.name)).flatMap
            (fun c => itemData c :: (m.filter (descWithin m f (some c.name))).map itemData)) := by
        apply flatMap_perm_congr
        intro c hc
        have hcm := ((childrenOf_mem m (some e.name) c).mp hc).1
        exact ih c hcm (reaches_child m (some e.name) hTok c hc)
      have step2 : ((childrenOf m (some e.name)).flatMap
          (fun c => itemData c :: (m.filter (descWithin m f (some c.name))).map itemData)) =
          ((childrenOf m (some e.name)).flatMap
            (fun c => c :: m.filter (descWithin m f (some c.name)))).map itemData := by
        rw [List.map_flatMap]
        simp only [List.map_cons]
      refine step1.trans ?_
      rw [step2]
      exact (List.Perm.map itemData (partition_perm m hnd (some e.name) hTok f)).symm

/-- The nodes of the tree returned by the build are the synthetic root plus
exactly the entries whose attachment chain reaches the roots array. -/
theorem treeData_root_perm (m : List FlatItem) (hnd : (m.map FlatItem.name).Nodup) (f : Nat) :
    (treeData (TreeNode.mk "root" none none none none
        ((childrenOf m none).map (buildNode m f)))).Perm
      (rootData :: (m.filter (descWithin m (f + 1) none)).map itemData) := by
  show (rootData :: forestData ((childrenOf m none).map (buildNode m f))).Perm _
  apply List.Perm.cons
  rw [forestData_eq_flatMap, List.flatMap_map]
  have step1 : ((childrenOf m none).flatMap (fun c => treeData (buildNode m f c))).Perm
      ((childrenOf m none).flatMap
        (fun c => itemData c :: (m.filter (descWithin m f (some c.name))).map itemData)) := by
    apply flatMap_perm_congr
    intro c hc
    have hcm := ((childrenOf_mem m none c).mp hc).1
    exact treeData_buildNode_perm m hnd f c hcm (reaches_child m none trivial c hc)
  have step2 : ((childrenOf m none).flatMap
      (fun c => itemData c :: (m.filter (descWithin m f (some c.name))).map itemData)) =
      ((childrenOf m none).flatMap
        (fun c => c :: m.filter (descWithin m f (some c.name)))).map itemData := by
    rw [List.map_flatMap]
    simp only [List.map_cons]
  refine step1.trans ?_
  rw [step2]
  exact (List.Perm.map itemData (partition_perm m hnd none trivial f)).symm

/-! ### C5: node count and reachability -/

/-- An input on which C5 as stated fails: both records carry valid levels,
yet their `parent` references form a two-cycle. -/
def c5Input : List FlatItem :=
  [⟨"A", 2, some "B", none, none⟩, ⟨"B", 2, some "A", none, none⟩]

/-- Counterexample to C5 as stated: `c5Input` has 2 records, all levels in
`[1,6]`, the build succeeds, but the returned tree is the bare synthetic
root (1 node in total): the two records attach to each other, are
reachable from no root, and are silently dropped, so the node count
excluding the root is 0, not 2. -/
theorem C5_counterexample :
    (∀ x ∈ c5Input, 1 ≤ x.level ∧ x.level ≤ 6) ∧
    c5Input.length = 2 ∧
    (nestFlatToTree c5Input).map (fun t => (treeData t).length) = Except.ok 1 := by
  exact ⟨by decide, rfl, rfl⟩

/-- C5 amended: for valid inputs with pairwise-distinct names in which
every record's parent chain reaches the roots array (in particular, no
parent cycles), the build succeeds and the returned tree consists of the
synthetic root plus exactly one node per input record (so every record's
node hangs from the root through its parent chain, and the node count
excluding the root equals the record count). -/
theorem C5_tree_complete (items : List FlatItem)
    (hnd : (items.map FlatItem.name).Nodup)
    (hval : ∀ x ∈ items, ¬(x.level < 1 ∨ 6 < x.level))
    (hreach : ∀ x ∈ items, reachesRoot items x = true) :
    ∃ t, nestFlatToTree items = .ok t ∧
      (treeData t).Perm (rootData :: items.map itemData) ∧
      (treeData t).length = items.length + 1 := by
  have hmap : items.foldl mapSet [] = items := by
    have := foldl_mapSet_eq_append items []
      (fun it _ e he => absurd he (List.not_mem_nil e)) hnd
    simpa using this
  have hok : nestFlatToTree items = .ok (.mk "root" none none none none
      ((childrenOf items none).map (buildNode items items.length))) := by
    unfold nestFlatToTree
    rw [buildByName_ok items [] hval]
    rw [hmap]
    rfl
  have hperm : (treeData (TreeNode.mk "root" none none none none
      ((childrenOf items none).map (buildNode items items.length)))).Perm
      (rootData :: items.map itemData) := by
    have hp := treeData_root_perm items hnd items.length
    have hfilter : items.filter (descWithin items (items.length + 1) none) = items :=
      List.filter_eq_self.mpr (fun a ha => hreach a ha)
    rw [hfilter] at hp
    exact hp
  refine ⟨_, hok, hperm, ?_⟩
  have := hperm.length_eq
  simpa using this

/-- Witness for C5 amended at the spec's two-record example shape. -/
theorem C5_tree_complete_witness :
    ((([⟨"K", 1, none, none, none⟩, ⟨"B", 2, some "K", none, none⟩] :
        List FlatItem).map FlatItem.name).Nodup) ∧
    (∀ x ∈ ([⟨"K", 1, none, none, none⟩, ⟨"B", 2, some "K", none, none⟩] : List FlatItem),
        reachesRoot [⟨"K", 1, none, none, none⟩, ⟨"B", 2, some "K", none, none⟩] x = true) ∧
    ∃ t, nestFlatToTree [⟨"K", 1, none, none, none⟩, ⟨"B", 2, some "K", none, none⟩] = .ok t ∧
      (treeData t).Perm (rootData ::
        ([⟨"K", 1, none, none, none⟩, ⟨"B", 2, some "K", none, none⟩] :
          List FlatItem).map itemData) ∧
      (treeData t).length =
        ([⟨"K", 1, none, none, none⟩, ⟨"B", 2, some "K", none, none⟩] :
          List FlatItem).length + 1 :=
  ⟨by decide, by decide,
    C5_tree_complete [⟨"K", 1, none, none, none⟩, ⟨"B", 2, some "K", none, none⟩]
      (by decide) (by decide) (by decide)⟩

/-! ### C8: duplicate names and last-write-wins -/

theorem filter_eq_single (l : List FlatItem) (hl : l.Nodup) (q : FlatItem → Bool)
    (it : FlatItem) (hmem : it ∈ l) (hq : q it = true)
    (huniq : ∀ e ∈ l, q e = true → e = it) : l.filter q = [it] := by
  induction l with
  | nil => cases hmem
  | cons x xs ih =>
      rw [List.nodup_cons] at hl
      rcases List.mem_cons.mp hmem with hx | hmem2
      · rw [List.filter_cons]
        have hqx2 : q x = true := by rw [← hx]; exact hq
        rw [hqx2]
        simp only [if_true]
        have hxs : xs.filter q = [] := by
          apply List.filter_eq_nil_iff.mpr
          intro e he
          intro hqe
          have hei := huniq e (List.mem_cons_of_mem x he) hqe
          rw [hei, hx] at he
          exact hl.1 he
        rw [hxs, ← hx]
      · have hqx : q x = false := by
          cases hqx : q x with
          | false => rfl
          | true =>
              have hxit := huniq x (List.mem_cons_self x xs) hqx
              rw [hxit] at hl
              exact absurd hmem2 hl.1
        rw [List.filter_cons, hqx]
        simp only [Bool.false_eq_true, if_false]
        exact ih hl.2 hmem2
          (fun e he hqe => huniq e (List.mem_cons_of_mem x he) hqe)

/-- An input on which C8 as stated fails: records 2 and 3 share the name
`A`; the surviving record's parent is itself, so its node ends up on a
cycle and the returned tree contains no node named `A` at all. -/
def c8Input : List FlatItem :=
  [⟨"X", 1, none, none, none⟩,
   ⟨"A", 1, none, none, none⟩,
   ⟨"A", 2, some "A", none, none⟩]

/-- Counterexample to C8 as stated: `c8Input` holds two records named `A`,
the build succeeds, but the returned tree contains zero nodes named `A`
(not exactly one): the surviving record's self-referential parent puts its
node on a cycle, dropped from the tree. -/
theorem C8_counterexample :
    c8Input.countP (fun x => x.name = "A") = 2 ∧
    (nestFlatToTree c8Input).map
      (fun t => (treeData t).filter (fun d => d.name = "A")) = Except.ok [] := by
  exact ⟨by decide, rfl⟩

/-- C8 amended: when records share a name, the last record with that name
wins: provided all levels are valid, the name is not the reserved `"root"`,
and the surviving (last) record's parent chain reaches the roots array,
the built tree contains exactly one node with that name, and it carries
the last record's level, parent, source and value (the earlier duplicate
records contribute no node). -/
theorem C8_last_write_wins (items : List FlatItem) (n : String) (it : FlatItem)
    (hval : ∀ x ∈ items, ¬(x.level < 1 ∨ 6 < x.level))
    (hdup : 2 ≤ items.countP (fun x => x.name = n))
    (hlast : items.reverse.find? (fun x => x.name = n) = some it)
    (hroot : n ≠ "root")
    (hreach : reachesRoot (finalMap items) it = true) :
    ∃ t, nestFlatToTree items = .ok t ∧
      (treeData t).filter (fun d => d.name = n) = [itemData it] := by
  have hok : nestFlatToTree items = .ok (.mk "root" none none none none
      ((childrenOf (finalMap items) none).map
        (buildNode (finalMap items) (finalMap items).length))) := by
    unfold nestFlatToTree
    rw [buildByName_ok items [] hval]
    rfl
  set m := finalMap items with hm
  have hnd : (m.map FlatItem.name).Nodup := keys_nodup_foldl_mapSet items [] (by simp)
  have hlook : lookupName m n = some it := by
    rw [hm]
    show lookupName (items.foldl mapSet []) n = some it
    rw [lookup_foldl_mapSet_nil items n]
    exact hlast
  have hitm : it ∈ m := lookupName_mem m n it hlook
  have hitn : it.name = n := lookupName_name m n it hlook
  have hperm := treeData_root_perm m hnd m.length
  have hfperm := hperm.filter (fun d => d.name = n)
  have hrhs : (rootData :: (m.filter (descWithin m (m.length + 1) none)).map
      itemData).filter (fun d => d.name = n) = [itemData it] := by
    rw [List.filter_cons]
    have hrootn : (decide (rootData.name = n)) = false :=
      decide_eq_false (fun h => hroot (show n = "root" from h.symm))
    rw [hrootn]
    simp only [Bool.false_eq_true, if_false]
    have hstep : ((m.filter (descWithin m (m.length + 1) none)).map itemData).filter
        (fun d => decide (d.name = n)) =
        ((m.filter (descWithin m (m.length + 1) none)).filter
          (fun e => decide (e.name = n))).map itemData := by
      rw [List.filter_map]
      rfl
    rw [hstep]
    have hsingle : (m.filter (descWithin m (m.length + 1) none)).filter
        (fun e => decide (e.name = n)) = [it] := by
      apply filter_eq_single _ ((List.Nodup.of_map FlatItem.name hnd).filter _) _ it
      · exact List.mem_filter.mpr ⟨hitm, hreach⟩
      · exact decide_eq_true hitn
      · intro e he hqe
        exact name_inj_on m hnd e (List.mem_filter.mp he).1 it hitm
          ((of_decide_eq_true hqe).trans hitn.symm)
    rw [hsingle]
    rfl
  rw [hrhs] at hfperm
  exact ⟨_, hok, List.perm_singleton.mp hfperm⟩

/-- Witness for C8 amended: two records named `A`; the last one (level 2
under `X`) wins and is the unique `A` node in the tree. -/
theorem C8_last_write_wins_witness :
    2 ≤ ([⟨"A", 1, none, none, none⟩, ⟨"X", 1, none, none, none⟩,
          ⟨"A", 2, some "X", none, some 7⟩] : List FlatItem).countP
        (fun x => x.name = "A") ∧
    ∃ t, nestFlatToTree [⟨"A", 1, none, none, none⟩, ⟨"X", 1, none, none, none⟩,
          ⟨"A", 2, some "X", none, some 7⟩] = .ok t ∧
      (treeData t).filter (fun d => d.name = "A") =
        [itemData ⟨"A", 2, some "X", none, some 7⟩] :=
  ⟨by decide,
    C8_last_write_wins
      [⟨"A", 1, none, none, none⟩, ⟨"X", 1, none, none, none⟩,
        ⟨"A", 2, some "X", none, some 7⟩] "A" ⟨"A", 2, some "X", none, some 7⟩
      (by decide) (by decide) (by decide) (by decide) (by decide)⟩

/-! ### The radial packer `computeBubblePackingLayout`

The geometry is modelled over the real numbers; the source's `Math.cos`,
`Math.sin`, `Math.hypot`, `Math.PI` become `Real.cos`, `Real.sin`,
`Real.sqrt` of a sum of squares, and `Real.pi`.  Each `let`-binding of the
source function is exposed as a named definition so that theorems can
speak about it. -/

noncomputable section

/-- Source helper `clamp` (line 476): `Math.max(min, Math.min(max, v))`. -/
def clamp (v mn mx : ℝ) : ℝ := max mn (min mx v)

/-- One placed bubble of the packing layout (source type `PlacedBubble`). -/
structure PlacedBubble where
  id : String
  name : String
  depth : ℕ
  data : TreeNode
  r : ℝ
  x : ℝ
  y : ℝ
  parentId : Option String

/-- A placed child (source type `ChildPlaced`), which also remembers its
ring angle. -/
structure ChildPlaced extends PlacedBubble where
  angle : ℝ

/-- One entry of `childInfo` (line 502). -/
structure ChildInfo where
  node : TreeNode
  r : ℝ
  gc : ℕ

/-- `rParent` (line 499). -/
def rParentOf (side : ℝ) : ℝ := clamp (side * 0.16) 40 120

/-- `childInfo` (lines 502-511): the child radius scales with the child's
own grandchild count, clamped. -/
def childInfoOf (focus : TreeNode) (side : ℝ) : List ChildInfo :=
  focus.children.map (fun c =>
    ⟨c, clamp (side * 0.06 + (c.children.length : ℝ) * (side * 0.005))
      (side * 0.05) (side * 0.12), c.children.length⟩)

/-- `gapC` (line 513). -/
def gapCOf (side : ℝ) : ℝ := clamp (side * 0.008) 6 16

/-- `circumferenceNeeded` (lines 514-517). -/
def circumferenceNeededOf (focus : TreeNode) (side : ℝ) : ℝ :=
  (childInfoOf focus side).foldl (fun acc it => acc + (2 * it.r + gapCOf side)) 0

/-- The `reduce`d maximum child radius in `baseRing` (line 519); the JS
`|| 0` only maps a falsy result to `0` and is the identity here. -/
def maxChildROf (focus : TreeNode) (side : ℝ) : ℝ :=
  (childInfoOf focus side).foldl (fun mx it => max mx it.r) 0

/-- `baseRing` (line 519). -/
def baseRingOf (focus : TreeNode) (side : ℝ) : ℝ :=
  rParentOf side + maxChildROf focus side + 28

/-- `ringR` (line 520). -/
def ringROf (focus : TreeNode) (side : ℝ) : ℝ :=
  max (baseRingOf focus side) (circumferenceNeededOf focus side / (2 * Real.pi))

/-- `ringCirc` (line 521). -/
def ringCircOf (focus : TreeNode) (side : ℝ) : ℝ := 2 * Real.pi * ringROf focus side

/-- The child-placement sweep (lines 523-543): the mutable `theta`
accumulator becomes an explicit argument; each child occupies an arc
proportional to its diameter plus gap and its bubble sits at the midpoint
angle of that arc, on the ring of radius `ringR` around the canvas centre. -/
def placeChildrenAux (focusName : String) (cx cy ringR ringCirc gapC : ℝ) :
    ℝ → List ChildInfo → List ChildPlaced
  | _, [] => []
  | theta, it :: rest =>
      ⟨⟨it.node.name, it.node.name, 1, it.node, it.r,
        cx + ringR * Real.cos (theta + ((2 * it.r + gapC) / ringCirc * (2 * Real.pi)) / 2),
        cy + ringR * Real.sin (theta + ((2 * it.r + gapC) / ringCirc * (2 * Real.pi)) / 2),
        some focusName⟩,
        theta + ((2 * it.r + gapC) / ringCirc * (2 * Real.pi)) / 2⟩ ::
        placeChildrenAux focusName cx cy ringR ringCirc gapC
          (theta + (2 * it.r + gapC) / ringCirc * (2 * Real.pi)) rest

/-- `placedChildren` (line 525). -/
def placedChildrenOf (focus : TreeNode) (side : ℝ) : List ChildPlaced :=
  placeChildrenAux focus.name (side / 2) (side / 2) (ringROf focus side)
    (ringCircOf focus side) (gapCOf side) 0 (childInfoOf focus side)

/-- `gapG` (line 546). -/
def gapGOf (side : ℝ) : ℝ := clamp (side * 0.006) 4 12

/-- `minGrandR` (line 547). -/
def minGrandROf (side : ℝ) : ℝ := clamp (side * 0.042) 13 32

/-- `arcSpan` (line 548): 150 degrees. -/
def arcSpanVal : ℝ := 150 * Real.pi / 180

/-- `safety` (line 549). -/
def safetyVal : ℝ := 6

/-- `neighborRingCap` (lines 555-568); `none` models the JS `Infinity`
returned when there is at most one child.  `Math.hypot` is the square root
of the sum of squares.  (When `ch` itself is absent from `placed` the JS
`findIndex` yields `-1` and indexes a different neighbour than this model;
the function is only ever applied to members of `placed`.) -/
def neighborRingCap (placed : List ChildPlaced) (ch : ChildPlaced) (rG : ℝ) : Option ℝ :=
  if placed.length ≤ 1 then none
  else
    some (max 0 (min
      (Real.sqrt ((ch.x - (placed.getD ((placed.findIdx (fun p => p.id = ch.id) +
          placed.length - 1) % placed.length) ch).x) ^ 2 +
        (ch.y - (placed.getD ((placed.findIdx (fun p => p.id = ch.id) +
          placed.length - 1) % placed.length) ch).y) ^ 2) -
        (placed.getD ((placed.findIdx (fun p => p.id = ch.id) +
          placed.length - 1) % placed.length) ch).r - rG - safetyVal)
      (Real.sqrt ((ch.x - (placed.getD ((placed.findIdx (fun p => p.id = ch.id) + 1) %
          placed.length) ch).x) ^ 2 +
        (ch.y - (placed.getD ((placed.findIdx (fun p => p.id = ch.id) + 1) %
          placed.length) ch).y) ^ 2) -
        (placed.getD ((placed.findIdx (fun p => p.id = ch.id) + 1) %
          placed.length) ch).r - rG - safetyVal)))

/-- The initial `ringGmin` (line 586): the larger of the arc length needed
by the grandchildren over the 150-degree span and the clearance of the
owning child's circle. -/
def ringGmin0Of (side : ℝ) (ch : ChildPlaced) : ℝ :=
  max ((ch.data.children.length : ℝ) * (2 * minGrandROf side + gapGOf side) / arcSpanVal)
    (ch.r + minGrandROf side + safetyVal)

/-- The once-shrunk grandchild radius of the relaxation branch (lines
593-594): `Math.max(6, rG * clamp(ringGmax / ringGmin, 0.65, 1))`. -/
def rG1Of (side : ℝ) (ch : ChildPlaced) (gmax : ℝ) : ℝ :=
  max 6 (minGrandROf side * clamp (gmax / ringGmin0Of side ch) 0.65 1)

open Classical in
/-- The per-child grandchild parameters `(rG, ringGmin, ringGmax)` after
the single-pass shrink relaxation (lines 575-598). -/
def grandParams (placed : List ChildPlaced) (side : ℝ) (ch : ChildPlaced) :
    ℝ × ℝ × Option ℝ :=
  match neighborRingCap placed ch (minGrandROf side) with
  | none => (minGrandROf side, ringGmin0Of side ch, none)
  | some gmax =>
      if gmax < ringGmin0Of side ch ∧ 0 < gmax then
        (rG1Of side ch gmax,
          max ((ch.data.children.length : ℝ) *
              (2 * rG1Of side ch gmax + gapGOf side) / arcSpanVal)
            (ch.r + rG1Of side ch gmax + safetyVal),
          neighborRingCap placed ch (rG1Of side ch gmax))
      else (minGrandROf side, ringGmin0Of side ch, some gmax)

/-- Final grandchild radius `rG` for one child. -/
def rGOf (placed : List ChildPlaced) (side : ℝ) (ch : ChildPlaced) : ℝ :=
  (grandParams placed side ch).1

/-- Final `ringGmin` for one child. -/
def ringGminOf (placed : List ChildPlaced) (side : ℝ) (ch : ChildPlaced) : ℝ :=
  (grandParams placed side ch).2.1

/-- Final `ringGmax` for one child. -/
def ringGmaxOf (placed : List ChildPlaced) (side : ℝ) (ch : ChildPlaced) : Option ℝ :=
  (grandParams placed side ch).2.2

/-- Final grandchild ring radius `ringG` (lines 600-603). -/
def ringGOf (placed : List ChildPlaced) (side : ℝ) (ch : ChildPlaced) : ℝ :=
  match ringGmaxOf placed side ch with
  | none => max (ringGminOf placed side ch) 0
  | some gmax => min (max (ringGminOf placed side ch) 0)
      (max gmax (ringGminOf placed side ch))

/-- `stepTheta` (line 608). -/
def stepThetaOf (placed : List ChildPlaced) (side : ℝ) (ch : ChildPlaced) : ℝ :=
  (2 * rGOf placed side ch + gapGOf side) / ringGOf placed side ch

/-- The grandchild bubbles emitted for one child (lines 570-628): `N`
bubbles of the shared radius `rG` on the ring of radius `ringG` around the
child, spread by `stepTheta` and centred on the child's outward angle;
nothing is emitted when the child has no grandchildren. -/
def grandsFor (placed : List ChildPlaced) (side : ℝ) (ch : ChildPlaced) :
    List PlacedBubble :=
  if ch.data.children.length = 0 then []
  else
    ch.data.children.enum.map (fun p =>
      ⟨ch.id ++ "::" ++ p.2.name, p.2.name, 2, p.2, rGOf placed side ch,
        ch.x + ringGOf placed side ch *
          Real.cos ((ch.angle - ((ch.data.children.length : ℝ) - 1) *
              stepThetaOf placed side ch / 2) + (p.1 : ℝ) * stepThetaOf placed side ch),
        ch.y + ringGOf placed side ch *
          Real.sin ((ch.angle - ((ch.data.children.length : ℝ) - 1) *
              stepThetaOf placed side ch / 2) + (p.1 : ℝ) * stepThetaOf placed side ch),
        some ch.id⟩)

/-- The result record `{ nodes, side }`. -/
structure PackLayout where
  nodes : List PlacedBubble
  side : ℝ

/-- Source function `computeBubblePackingLayout` (FinanceSigmaGraph.tsx
lines 491-643): the tier-0 focus bubble at the canvas centre, the tier-1
children on a ring around it, and the tier-2 grandchildren on outward arcs
around each child. -/
def computeBubblePackingLayout (focus : TreeNode) (side : ℝ) : PackLayout :=
  ⟨(⟨focus.name, focus.name, 0, focus, rParentOf side, side / 2, side / 2,
      none⟩ : PlacedBubble) ::
    ((placedChildrenOf focus side).map ChildPlaced.toPlacedBubble ++
      (placedChildrenOf focus side).flatMap
        (grandsFor (placedChildrenOf focus side) side)),
    side⟩

end

/-! ### Structural lemmas about the packer -/

theorem placeChildrenAux_cons (fn : String) (cx cy ringR ringCirc gapC theta : ℝ)
    (x : ChildInfo) (xs : List ChildInfo) :
    placeChildrenAux fn cx cy ringR ringCirc gapC theta (x :: xs) =
      (⟨⟨x.node.name, x.node.name, 1, x.node, x.r,
        cx + ringR * Real.cos (theta + ((2 * x.r + gapC) / ringCirc * (2 * Real.pi)) / 2),
        cy + ringR * Real.sin (theta + ((2 * x.r + gapC) / ringCirc * (2 * Real.pi)) / 2),
        some fn⟩,
        theta + ((2 * x.r + gapC) / ringCirc * (2 * Real.pi)) / 2⟩ : ChildPlaced) ::
        placeChildrenAux fn cx cy ringR ringCirc gapC
          (theta + (2 * x.r + gapC) / ringCirc * (2 * Real.pi)) xs := rfl

theorem placeChildrenAux_length (fn : String) (cx cy ringR ringCirc gapC : ℝ) :
    ∀ (l : List ChildInfo) (theta : ℝ),
      (placeChildrenAux fn cx cy ringR ringCirc gapC theta l).length = l.length := by
  intro l
  induction l with
  | nil => intro theta; rfl
  | cons x xs ih =>
      intro theta
      rw [placeChildrenAux_cons]
      simp only [List.length_cons, ih]

theorem placeChildrenAux_map_data (fn : String) (cx cy ringR ringCirc gapC : ℝ) :
    ∀ (l : List ChildInfo) (theta : ℝ),
      (placeChildrenAux fn cx cy ringR ringCirc gapC theta l).map
          (fun b => b.data) = l.map ChildInfo.node := by
  intro l
  induction l with
  | nil => intro theta; rfl
  | cons x xs ih =>
      intro theta
      rw [placeChildrenAux_cons]
      simp only [List.map_cons, ih]

theorem placedChildrenOf_length (focus : TreeNode) (side : ℝ) :
    (placedChildrenOf focus side).length = focus.children.length := by
  unfold placedChildrenOf
  rw [placeChildrenAux_length]
  unfold childInfoOf
  rw [List.length_map]

theorem grandsFor_length (placed : List ChildPlaced) (side : ℝ) (ch : ChildPlaced) :
    (grandsFor placed side ch).length = ch.data.children.length := by
  unfold grandsFor
  by_cases h : ch.data.children.length = 0
  · rw [if_pos h, h]
    rfl
  · rw [if_neg h]
    rw [List.length_map, List.enum_length]

/-- C1: the packer always returns exactly `1 + |children| + sum over the
children of their own child count` bubbles: one tier-0 focus bubble, one
tier-1 bubble per direct child, one tier-2 bubble per grandchild. -/
theorem C1_bubble_count (focus : TreeNode) (side : ℝ) :
    ((computeBubblePackingLayout focus side).nodes).length =
      1 + focus.children.length +
        (focus.children.map (fun c => c.children.length)).sum := by
  unfold computeBubblePackingLayout
  simp only [List.length_cons, List.length_append, List.length_map, List.length_flatMap]
  rw [placedChildrenOf_length]
  have hmap : ((placedChildrenOf focus side).map
      (List.length ∘ grandsFor (placedChildrenOf focus side) side)) =
      (placedChildrenOf focus side).map (fun b => b.data.children.length) := by
    apply List.map_congr_left
    intro b _
    show (grandsFor (placedChildrenOf focus side) side b).length = _
    rw [grandsFor_length]
  rw [hmap]
  have hdata : (placedChildrenOf focus side).map (fun b => b.data.children.length) =
      focus.children.map (fun c => c.children.length) := by
    have h1 : (placedChildrenOf focus side).map (fun b => b.data.children.length) =
        ((placedChildrenOf focus side).map (fun b => b.data)).map
          (fun d => d.children.length) := by
      rw [List.map_map]
      rfl
    rw [h1]
    unfold placedChildrenOf
    rw [placeChildrenAux_map_data]
    unfold childInfoOf
    rw [List.map_map, List.map_map]
    rfl
  rw [hdata]
  omega

/-- C10: all tier-2 bubbles emitted for one owning child share the same
radius (one `rG` is computed per child and given to each grandchild). -/
theorem C10_equal_grandchild_radii (placed : List ChildPlaced) (side : ℝ)
    (ch : ChildPlaced) (i j : Fin (grandsFor placed side ch).length) :
    ((grandsFor placed side ch).get i).r = ((grandsFor placed side ch).get j).r := by
  have hall : ∀ g ∈ grandsFor placed side ch, g.r = rGOf placed side ch := by
    intro g hg
    unfold grandsFor at hg
    by_cases h : ch.data.children.length = 0
    · rw [if_pos h] at hg
      cases hg
    · rw [if_neg h] at hg
      obtain ⟨p, _, rfl⟩ := List.mem_map.mp hg
      rfl
  rw [hall _ (List.get_mem _ _ i.2), hall _ (List.get_mem _ _ j.2)]

/-! ### Positivity facts used by the packer's divisors -/

theorem foldl_max_init_le (l : List ChildInfo) :
    ∀ a : ℝ, a ≤ l.foldl (fun mx it => max mx it.r) a := by
  induction l with
  | nil => intro a; exact le_refl a
  | cons x xs ih =>
      intro a
      exact le_trans (le_max_left a x.r) (ih (max a x.r))

theorem mem_le_foldl_max (l : List ChildInfo) :
    ∀ (a : ℝ) (it : ChildInfo), it ∈ l → it.r ≤ l.foldl (fun mx it => max mx it.r) a := by
  induction l with
  | nil => intro a it h; cases h
  | cons x xs ih =>
      intro a it h
      rcases List.mem_cons.mp h with h1 | h1
      · rw [h1]
        exact le_trans (le_max_right a x.r) (foldl_max_init_le xs (max a x.r))
      · exact ih (max a x.r) it h1

theorem maxChildROf_nonneg (focus : TreeNode) (side : ℝ) : 0 ≤ maxChildROf focus side :=
  foldl_max_init_le _ 0

theorem rParentOf_ge (side : ℝ) : 40 ≤ rParentOf side := le_max_left _ _

theorem baseRingOf_ge (focus : TreeNode) (side : ℝ) : 68 ≤ baseRingOf focus side := by
  unfold baseRingOf
  have h1 := rParentOf_ge side
  have h2 := maxChildROf_nonneg focus side
  linarith

theorem ringROf_ge (focus : TreeNode) (side : ℝ) : 68 ≤ ringROf focus side :=
  le_trans (baseRingOf_ge focus side) (le_max_left _ _)

theorem ringROf_pos (focus : TreeNode) (side : ℝ) : 0 < ringROf focus side :=
  lt_of_lt_of_le (by norm_num) (ringROf_ge focus side)

theorem ringCircOf_pos (focus : TreeNode) (side : ℝ) : 0 < ringCircOf focus side := by
  unfold ringCircOf
  have h1 := Real.pi_pos
  have h2 := ringROf_pos focus side
  positivity

theorem gapCOf_ge (side : ℝ) : 6 ≤ gapCOf side := le_max_left _ _

theorem gapGOf_ge (side : ℝ) : 4 ≤ gapGOf side := le_max_left _ _

theorem minGrandROf_ge (side : ℝ) : 13 ≤ minGrandROf side := le_max_left _ _

theorem arcSpanVal_pos : 0 < arcSpanVal := by
  unfold arcSpanVal
  have := Real.pi_pos
  positivity

/-- The three possible outcomes of the relaxation: no neighbour cap, the
shrink branch taken, or the cap left as is. -/
theorem grandParams_cases (placed : List ChildPlaced) (side : ℝ) (ch : ChildPlaced) :
    grandParams placed side ch = (minGrandROf side, ringGmin0Of side ch, none) ∨
    (∃ gmax, grandParams placed side ch =
      (rG1Of side ch gmax,
        max ((ch.data.children.length : ℝ) *
            (2 * rG1Of side ch gmax + gapGOf side) / arcSpanVal)
          (ch.r + rG1Of side ch gmax + safetyVal),
        neighborRingCap placed ch (rG1Of side ch gmax))) ∨
    (∃ gmax, grandParams placed side ch =
      (minGrandROf side, ringGmin0Of side ch, some gmax)) := by
  unfold grandParams
  cases hm : neighborRingCap placed ch (minGrandROf side) with
  | none => left; rfl
  | some gmax =>
      by_cases hc : gmax < ringGmin0Of side ch ∧ 0 < gmax
      · right; left; exact ⟨gmax, if_pos hc⟩
      · right; right; exact ⟨gmax, if_neg hc⟩

theorem rGOf_ge (placed : List ChildPlaced) (side : ℝ) (ch : ChildPlaced) :
    6 ≤ rGOf placed side ch := by
  unfold rGOf
  rcases grandParams_cases placed side ch with h | ⟨gmax, h⟩ | ⟨gmax, h⟩ <;> rw [h]
  · exact le_trans (by norm_num) (minGrandROf_ge side)
  · exact le_max_left 6 _
  · exact le_trans (by norm_num) (minGrandROf_ge side)

theorem ringGminOf_ge_needed (placed : List ChildPlaced) (side : ℝ) (ch : ChildPlaced) :
    (ch.data.children.length : ℝ) * (2 * rGOf placed side ch + gapGOf side) / arcSpanVal ≤
      ringGminOf placed side ch := by
  unfold ringGminOf rGOf
  rcases grandParams_cases placed side ch with h | ⟨gmax, h⟩ | ⟨gmax, h⟩ <;> rw [h]
  · exact le_max_left _ _
  · exact le_max_left _ _
  · exact le_max_left _ _

theorem ringGminOf_pos (placed : List ChildPlaced) (side : ℝ) (ch : ChildPlaced)
    (hN : ch.data.children.length ≠ 0) : 0 < ringGminOf placed side ch := by
  refine lt_of_lt_of_le ?_ (ringGminOf_ge_needed placed side ch)
  have hN1 : (1 : ℝ) ≤ (ch.data.children.length : ℝ) := by
    have : 1 ≤ ch.data.children.length := Nat.one_le_iff_ne_zero.mpr hN
    exact_mod_cast this
  have h1 := rGOf_ge placed side ch
  have h2 := gapGOf_ge side
  have h3 := arcSpanVal_pos
  apply div_pos
  · nlinarith
  · exact h3

theorem ringGOf_eq_ringGmin (placed : List ChildPlaced) (side : ℝ) (ch : ChildPlaced)
    (h : 0 < ringGminOf placed side ch) :
    ringGOf placed side ch = ringGminOf placed side ch := by
  unfold ringGOf
  cases hm : ringGmaxOf placed side ch with
  | none => exact max_eq_left h.le
  | some gmax =>
      rw [max_eq_left h.le]
      exact min_eq_left (le_max_right gmax _)

theorem ringGOf_pos (placed : List ChildPlaced) (side : ℝ) (ch : ChildPlaced)
    (hN : ch.data.children.length ≠ 0) : 0 < ringGOf placed side ch := by
  rw [ringGOf_eq_ringGmin placed side ch (ringGminOf_pos placed side ch hN)]
  exact ringGminOf_pos placed side ch hN

/-- C7: the packer is total.  Its divisors are strictly positive: the
child-ring circumference always, and the grandchild ring radius whenever it
is used (that is, whenever the owning child has at least one grandchild).
A focus without children yields exactly the single tier-0 bubble, and a
child without grandchildren contributes no tier-2 bubbles. -/
theorem C7_pack_total :
    (∀ (focus : TreeNode) (side : ℝ), 0 < ringCircOf focus side) ∧
    (∀ (placed : List ChildPlaced) (side : ℝ) (ch : ChildPlaced)
      (_ : Fin ch.data.children.length), 0 < ringGOf placed side ch) ∧
    (∀ (n : String) (lv : Option ℚ) (pa so : Option String) (va : Option ℚ) (side : ℝ),
      computeBubblePackingLayout (.mk n lv pa so va []) side =
        ⟨[⟨n, n, 0, .mk n lv pa so va [], rParentOf side, side / 2, side / 2, none⟩],
          side⟩) ∧
    (∀ (placed : List ChildPlaced) (side : ℝ) (i1 n1 : String) (d1 : ℕ)
      (nn : String) (lv : Option ℚ) (pa so : Option String) (va : Option ℚ)
      (r1 x1 y1 : ℝ) (pid : Option String) (ang : ℝ),
      grandsFor placed side
        ⟨⟨i1, n1, d1, .mk nn lv pa so va [], r1, x1, y1, pid⟩, ang⟩ = []) := by
  refine ⟨fun focus side => ringCircOf_pos focus side, ?_, ?_, ?_⟩
  · intro placed side ch i
    apply ringGOf_pos placed side ch
    intro h0
    rw [h0] at i
    exact absurd i.2 (Nat.not_lt_zero i.1)
  · intro n lv pa so va side
    rfl
  · intro placed side i1 n1 d1 nn lv pa so va r1 x1 y1 pid ang
    rfl

/-! ### C9: bubble ids -/

theorem placeChildrenAux_map_id (fn : String) (cx cy ringR ringCirc gapC : ℝ) :
    ∀ (l : List ChildInfo) (theta : ℝ),
      (placeChildrenAux fn cx cy ringR ringCirc gapC theta l).map (fun b => b.id) =
        l.map (fun it => it.node.name) := by
  intro l
  induction l with
  | nil => intro theta; rfl
  | cons x xs ih =>
      intro theta
      rw [placeChildrenAux_cons]
      simp only [List.map_cons, ih]

theorem placeChildrenAux_map_pair (fn : String) (cx cy ringR ringCirc gapC : ℝ) :
    ∀ (l : List ChildInfo) (theta : ℝ),
      (placeChildrenAux fn cx cy ringR ringCirc gapC theta l).map
          (fun b => (b.id, b.data)) = l.map (fun it => (it.node.name, it.node)) := by
  intro l
  induction l with
  | nil => intro theta; rfl
  | cons x xs ih =>
      intro theta
      rw [placeChildrenAux_cons]
      simp only [List.map_cons, ih]

theorem enum_map_snd_comp {α β : Type} (l : List α) (g : α → β) :
    l.enum.map (fun p => g p.2) = l.map g := by
  have h1 : l.enum.map (fun p => g p.2) = (l.enum.map Prod.snd).map g := by
    rw [List.map_map]
    rfl
  rw [h1, List.enum_map_snd]

theorem grandsFor_map_id (placed : List ChildPlaced) (side : ℝ) (ch : ChildPlaced) :
    (grandsFor placed side ch).map (fun b => b.id) =
      ch.data.children.map (fun g => ch.id ++ "::" ++ g.name) := by
  unfold grandsFor
  by_cases h : ch.data.children.length = 0
  · rw [if_pos h]
    rw [List.length_eq_zero.mp h]
    rfl
  · rw [if_neg h]
    rw [List.map_map]
    exact enum_map_snd_comp ch.data.children (fun g => ch.id ++ "::" ++ g.name)

theorem grandIds_eq (focus : TreeNode) (side : ℝ) :
    ((placedChildrenOf focus side).flatMap
        (fun ch => (grandsFor (placedChildrenOf focus side) side ch).map (fun b => b.id))) =
      focus.children.flatMap
        (fun c => c.children.map (fun g => c.name ++ "::" ++ g.name)) := by
  have hpair : (placedChildrenOf focus side).map (fun b => (b.id, b.data)) =
      focus.children.map (fun c => (c.name, c)) := by
    unfold placedChildrenOf
    rw [placeChildrenAux_map_pair]
    unfold childInfoOf
    rw [List.map_map]
    rfl
  have h1 : ((placedChildrenOf focus side).flatMap
      (fun ch => (grandsFor (placedChildrenOf focus side) side ch).map (fun b => b.id))) =
      (placedChildrenOf focus side).flatMap
        (fun ch => ch.data.children.map (fun g => ch.id ++ "::" ++ g.name)) := by
    apply congrArg
    funext ch
    exact grandsFor_map_id (placedChildrenOf focus side) side ch
  rw [h1]
  have h2 : (placedChildrenOf focus side).flatMap
      (fun ch => ch.data.children.map (fun g => ch.id ++ "::" ++ g.name)) =
      ((placedChildrenOf focus side).map (fun b => (b.id, b.data))).flatMap
        (fun p => p.2.children.map (fun g => p.1 ++ "::" ++ g.name)) := by
    rw [List.flatMap_map]
  rw [h2, hpair, List.flatMap_map]

/-- The id list of a packing layout: the focus name, the bare child names,
then the lineage-qualified grandchild ids. -/
theorem pack_map_id (focus : TreeNode) (side : ℝ) :
    ((computeBubblePackingLayout focus side).nodes).map (fun b => b.id) =
      focus.name :: (focus.children.map TreeNode.name ++
        focus.children.flatMap
          (fun c => c.children.map (fun g => c.name ++ "::" ++ g.name))) := by
  unfold computeBubblePackingLayout
  simp only [List.map_cons, List.map_append]
  congr 1
  congr 1
  · rw [List.map_map]
    have : (placedChildrenOf focus side).map
        ((fun b => b.id) ∘ ChildPlaced.toPlacedBubble) =
        (placedChildrenOf focus side).map (fun b => b.id) := rfl
    rw [this]
    unfold placedChildrenOf
    rw [placeChildrenAux_map_id]
    unfold childInfoOf
    rw [List.map_map]
    rfl
  · rw [List.map_flatMap]
    exact grandIds_eq focus side

/-- A focus whose single child carries the focus's own name: ids collide. -/
def c9Focus : TreeNode :=
  .mk "A" none none none none [.mk "A" none none none none []]

/-- Counterexample to C9 as stated: tier-1 bubble ids are the bare child
names, not lineage-derived, so the pack of a focus named `A` with a child
named `A` emits the id list `["A", "A"]`, which is not globally unique. -/
theorem C9_counterexample :
    ¬ (((computeBubblePackingLayout c9Focus 600).nodes.map (fun b => b.id)).Nodup) := by
  rw [pack_map_id]
  show ¬ (["A", "A"] : List String).Nodup
  decide

theorem append_colon_inj (x y : List Char) : ∀ (a b : List Char),
    (':' ∉ a) → (':' ∉ b) →
    a ++ ':' :: ':' :: x = b ++ ':' :: ':' :: y → a = b ∧ x = y := by
  intro a
  induction a with
  | nil =>
      intro b ha hb h
      cases b with
      | nil =>
          refine ⟨rfl, ?_⟩
          simpa using h
      | cons d bs =>
          rw [List.nil_append, List.cons_append] at h
          have hc : ':' = d := (List.cons.inj h).1
          exact absurd (hc ▸ List.mem_cons_self d bs) (hc ▸ hb)
  | cons c as ih =>
      intro b ha hb h
      cases b with
      | nil =>
          rw [List.cons_append, List.nil_append] at h
          have hc : c = ':' := (List.cons.inj h).1
          exact absurd (List.mem_cons_self c as) (hc ▸ ha)
      | cons d bs =>
          rw [List.cons_append, List.cons_append] at h
          obtain ⟨hcd, hrest⟩ := List.cons.inj h
          have ha2 : ':' ∉ as := fun hm => ha (List.mem_cons_of_mem c hm)
          have hb2 : ':' ∉ bs := fun hm => hb (List.mem_cons_of_mem d hm)
          obtain ⟨h1, h2⟩ := ih bs ha2 hb2 hrest
          exact ⟨by rw [hcd, h1], h2⟩

/-- Lineage-qualified ids are injective in their components as long as the
parent components contain no colon. -/
theorem id_concat_inj (a x b y : String) (ha : ':' ∉ a.data) (hb : ':' ∉ b.data)
    (h : a ++ "::" ++ x = b ++ "::" ++ y) : a = b ∧ x = y := by
  have hd : a.data ++ ':' :: ':' :: x.data = b.data ++ ':' :: ':' :: y.data := by
    have h0 := congrArg String.data h
    rw [String.data_append, String.data_append, String.data_append,
      String.data_append] at h0
    have hcc : ("::" : String).data = [':', ':'] := rfl
    rw [hcc] at h0
    simpa using h0
  obtain ⟨h1, h2⟩ := append_colon_inj x.data y.data a.data b.data ha hb hd
  exact ⟨String.ext h1, String.ext h2⟩

/-- C9 amended: grandchild ids are lineage-qualified (`childId::name`), so
equal leaf names under differently named children receive distinct ids;
the focus and child ids, however, are the bare names.  All ids are
globally unique provided the focus name and the child names are pairwise
distinct, no two grandchildren of one child share a name, and the focus
and child names contain no colon character (bare names could otherwise
collide with the `::`-joined ids). -/
theorem C9_ids_unique (focus : TreeNode) (side : ℝ)
    (h1 : (focus.name :: focus.children.map TreeNode.name).Nodup)
    (h2 : ∀ c ∈ focus.children, (c.children.map TreeNode.name).Nodup)
    (h3 : ':' ∉ focus.name.data)
    (h4 : ∀ c ∈ focus.children, ':' ∉ c.name.data) :
    (((computeBubblePackingLayout focus side).nodes).map (fun b => b.id)).Nodup := by
  rw [pack_map_id]
  rw [List.nodup_cons] at h1
  have hcolon : ∀ s ∈ focus.children.flatMap
      (fun c => c.children.map (fun g => c.name ++ "::" ++ g.name)), ':' ∈ s.data := by
    intro s hs
    obtain ⟨c, hc, hsm⟩ := List.mem_flatMap.mp hs
    obtain ⟨g, hgm, hid⟩ := List.mem_map.mp hsm
    rw [← hid, String.data_append, String.data_append]
    apply List.mem_append.mpr
    left
    apply List.mem_append.mpr
    right
    show (':' : Char) ∈ ("::" : String).data
    decide
  rw [List.nodup_cons]
  constructor
  · intro hmem
    rcases List.mem_append.mp hmem with hm | hm
    · exact h1.1 hm
    · exact h3 (hcolon _ hm)
  · rw [List.nodup_append]
    refine ⟨h1.2, ?_, ?_⟩
    · rw [List.nodup_flatMap]
      constructor
      · intro c hc
        have hmm : c.children.map (fun g => c.name ++ "::" ++ g.name) =
            (c.children.map TreeNode.name).map (fun s => c.name ++ "::" ++ s) := by
          rw [List.map_map]
          rfl
        rw [hmm]
        apply List.Nodup.map ?_ (h2 c hc)
        intro s1 s2 hss
        have := id_concat_inj c.name s1 c.name s2 (h4 c hc) (h4 c hc) hss
        exact this.2
      · have hpn : focus.children.Pairwise (fun a b => a.name ≠ b.name) :=
          List.pairwise_map.mp h1.2
        refine List.Pairwise.imp_of_mem ?_ hpn
        intro a b hma hmb hab
        intro s hsa hsb
        obtain ⟨ga, hga, hida⟩ := List.mem_map.mp hsa
        obtain ⟨gb, hgb, hidb⟩ := List.mem_map.mp hsb
        have heq : a.name ++ "::" ++ ga.name = b.name ++ "::" ++ gb.name := by
          rw [hida, hidb]
        exact hab (id_concat_inj a.name ga.name b.name gb.name
          (h4 a hma) (h4 b hmb) heq).1
    · intro s hsc hsg
      obtain ⟨c, hc, hcn⟩ := List.mem_map.mp hsc
      exact (hcn ▸ h4 c hc) (hcolon s hsg)

/-- Witness for C9 amended: the same leaf name `Store` under two distinct
children gets the distinct ids `a::Store` and `b::Store`. -/
theorem C9_ids_unique_witness :
    (((TreeNode.mk "F" none none none none
        [.mk "a" none none none none [.mk "Store" none none none none []],
         .mk "b" none none none none [.mk "Store" none none none none []]]).name ::
      (TreeNode.mk "F" none none none none
        [.mk "a" none none none none [.mk "Store" none none none none []],
         .mk "b" none none none none [.mk "Store" none none none none []]]).children.map
        TreeNode.name).Nodup) ∧
    (((computeBubblePackingLayout (TreeNode.mk "F" none none none none
        [.mk "a" none none none none [.mk "Store" none none none none []],
         .mk "b" none none none none [.mk "Store" none none none none []]]) 600).nodes).map
      (fun b => b.id)).Nodup :=
  ⟨by decide,
    C9_ids_unique (TreeNode.mk "F" none none none none
        [.mk "a" none none none none [.mk "Store" none none none none []],
         .mk "b" none none none none [.mk "Store" none none none none []]]) 600
      (by decide) (by decide) (by decide) (by decide)⟩

/-! ### Angular bookkeeping of the child ring -/

/-- The angular width `delta` allotted to one child (line 527). -/
noncomputable def deltaOf (ringCirc gapC : ℝ) (it : ChildInfo) : ℝ :=
  (2 * it.r + gapC) / ringCirc * (2 * Real.pi)

/-- Sum of the angular widths of a list of children. -/
noncomputable def sumDeltas (ringCirc gapC : ℝ) (l : List ChildInfo) : ℝ :=
  (l.map (deltaOf ringCirc gapC)).sum

/-- The fields of the `i`-th placed child: its angle is the running sum of
the earlier widths plus half its own, its radius is the computed child
radius, and its centre sits on the ring at that angle. -/
theorem placeChildrenAux_get (fn : String) (cx cy ringR ringCirc gapC : ℝ) :
    ∀ (l : List ChildInfo) (theta : ℝ) (i : ℕ) (h : i < l.length)
      (hp : i < (placeChildrenAux fn cx cy ringR ringCirc gapC theta l).length),
      ((placeChildrenAux fn cx cy ringR ringCirc gapC theta l).get ⟨i, hp⟩).angle =
          theta + sumDeltas ringCirc gapC (l.take i) +
            deltaOf ringCirc gapC (l.get ⟨i, h⟩) / 2 ∧
      ((placeChildrenAux fn cx cy ringR ringCirc gapC theta l).get ⟨i, hp⟩).r =
          (l.get ⟨i, h⟩).r ∧
      ((placeChildrenAux fn cx cy ringR ringCirc gapC theta l).get ⟨i, hp⟩).x =
          cx + ringR * Real.cos
            (((placeChildrenAux fn cx cy ringR ringCirc gapC theta l).get ⟨i, hp⟩).angle) ∧
      ((placeChildrenAux fn cx cy ringR ringCirc gapC theta l).get ⟨i, hp⟩).y =
          cy + ringR * Real.sin
            (((placeChildrenAux fn cx cy ringR ringCirc gapC theta l).get ⟨i, hp⟩).angle) ∧
      ((placeChildrenAux fn cx cy ringR ringCirc gapC theta l).get ⟨i, hp⟩).data =
          (l.get ⟨i, h⟩).node := by
  intro l
  induction l with
  | nil => intro theta i h hp; exact absurd h (Nat.not_lt_zero i)
  | cons x xs ih =>
      intro theta i h hp
      cases i with
      | zero =>
          refine ⟨?_, rfl, rfl, rfl, rfl⟩
          show theta + (2 * x.r + gapC) / ringCirc * (2 * Real.pi) / 2 =
            theta + sumDeltas ringCirc gapC [] + deltaOf ringCirc gapC x / 2
          simp [sumDeltas, deltaOf]
      | succ i =>
          have hxs : i < xs.length := Nat.lt_of_succ_lt_succ h
          have hps : i < (placeChildrenAux fn cx cy ringR ringCirc gapC
              (theta + (2 * x.r + gapC) / ringCirc * (2 * Real.pi)) xs).length := by
            rw [placeChildrenAux_length]
            exact hxs
          have IH := ih (theta + (2 * x.r + gapC) / ringCirc * (2 * Real.pi)) i hxs hps
          refine ⟨Eq.trans IH.1 ?_, IH.2.1, IH.2.2.1, IH.2.2.2.1, IH.2.2.2.2⟩
          show theta + (2 * x.r + gapC) / ringCirc * (2 * Real.pi) +
              sumDeltas ringCirc gapC (xs.take i) +
              deltaOf ringCirc gapC (xs.get ⟨i, hxs⟩) / 2 =
            theta + sumDeltas ringCirc gapC (x :: xs.take i) +
              deltaOf ringCirc gapC (xs.get ⟨i, hxs⟩) / 2
          simp only [sumDeltas, List.map_cons, List.sum_cons]
          unfold deltaOf
          ring

theorem sumDeltas_take_succ (ringCirc gapC : ℝ) (l : List ChildInfo) (i : ℕ)
    (h : i < l.length) :
    sumDeltas ringCirc gapC (l.take (i + 1)) =
      sumDeltas ringCirc gapC (l.take i) + deltaOf ringCirc gapC (l.get ⟨i, h⟩) := by
  unfold sumDeltas
  rw [List.take_succ, List.map_append, List.sum_append]
  congr 1
  rw [List.getElem?_eq_getElem h]
  simp only [Option.toList_some, List.map_cons, List.map_nil, List.sum_cons,
    List.sum_nil, add_zero]
  rfl

theorem sumDeltas_take_mono (ringCirc gapC : ℝ) (l : List ChildInfo)
    (hn : ∀ it ∈ l, 0 ≤ deltaOf ringCirc gapC it) :
    Monotone (fun k => sumDeltas ringCirc gapC (l.take k)) := by
  apply monotone_nat_of_le_succ
  intro k
  show sumDeltas ringCirc gapC (l.take k) ≤ sumDeltas ringCirc gapC (l.take (k + 1))
  by_cases hk : k < l.length
  · rw [sumDeltas_take_succ ringCirc gapC l k hk]
    have := hn (l.get ⟨k, hk⟩) (List.get_mem l k hk)
    linarith
  · push_neg at hk
    rw [List.take_of_length_le hk, List.take_of_length_le (by omega)]

theorem childInfo_r_ge (focus : TreeNode) (side : ℝ) :
    ∀ it ∈ childInfoOf focus side, side * 0.05 ≤ it.r := by
  intro it hit
  unfold childInfoOf at hit
  obtain ⟨c, _, rfl⟩ := List.mem_map.mp hit
  exact le_max_left _ _

theorem deltaOf_nonneg (focus : TreeNode) (side : ℝ) (hside : 0 ≤ side) :
    ∀ it ∈ childInfoOf focus side,
      0 ≤ deltaOf (ringCircOf focus side) (gapCOf side) it := by
  intro it hit
  unfold deltaOf
  have h1 : 0 ≤ 2 * it.r + gapCOf side := by
    have h2 := childInfo_r_ge focus side it hit
    have h6 := gapCOf_ge side
    nlinarith
  have h2 := ringCircOf_pos focus side
  have h3 := Real.pi_pos
  apply mul_nonneg (div_nonneg h1 h2.le)
  positivity

theorem ringR_mul_delta (focus : TreeNode) (side : ℝ) (it : ChildInfo) :
    ringROf focus side * deltaOf (ringCircOf focus side) (gapCOf side) it =
      2 * it.r + gapCOf side := by
  unfold deltaOf ringCircOf
  have hR := ringROf_pos focus side
  have hpi := Real.pi_ne_zero
  field_simp
  ring

theorem placedChildrenOf_clen (focus : TreeNode) (side : ℝ)
    (i : Fin (placedChildrenOf focus side).length) :
    (i : ℕ) < (childInfoOf focus side).length := by
  have h2 := placeChildrenAux_length focus.name (side / 2) (side / 2)
    (ringROf focus side) (ringCircOf focus side) (gapCOf side) (childInfoOf focus side) 0
  exact lt_of_lt_of_eq i.2 h2

/-- The fields of the `i`-th bubble of `placedChildrenOf`. -/
theorem placedChildrenOf_get (focus : TreeNode) (side : ℝ)
    (i : Fin (placedChildrenOf focus side).length)
    (h : (i : ℕ) < (childInfoOf focus side).length) :
    ((placedChildrenOf focus side).get i).angle =
        0 + sumDeltas (ringCircOf focus side) (gapCOf side)
            ((childInfoOf focus side).take i) +
          deltaOf (ringCircOf focus side) (gapCOf side)
            ((childInfoOf focus side).get ⟨i, h⟩) / 2 ∧
    ((placedChildrenOf focus side).get i).r =
        ((childInfoOf focus side).get ⟨i, h⟩).r ∧
    ((placedChildrenOf focus side).get i).x =
        side / 2 + ringROf focus side *
          Real.cos (((placedChildrenOf focus side).get i).angle) ∧
    ((placedChildrenOf focus side).get i).y =
        side / 2 + ringROf focus side *
          Real.sin (((placedChildrenOf focus side).get i).angle) ∧
    ((placedChildrenOf focus side).get i).data =
        ((childInfoOf focus side).get ⟨i, h⟩).node := by
  exact placeChildrenAux_get focus.name (side / 2) (side / 2) (ringROf focus side)
    (ringCircOf focus side) (gapCOf side) (childInfoOf focus side) 0 i h i.2

/-- C2 amended: each tier-1 bubble's centre lies exactly on the child ring,
whose radius exceeds the focus radius plus the child radius by the fixed
28-pixel margin (so no tier-1 bubble overlaps the tier-0 bubble), and any
two tier-1 bubbles are separated along the ring by an arc of length at
least the sum of their radii plus the gap.  (The chordal - Euclidean -
distance can nevertheless drop below the radius sum; see the
counterexample.) -/
theorem C2_ring_separation (focus : TreeNode) (side : ℝ) (hside : 0 ≤ side) :
    (∀ i : Fin (placedChildrenOf focus side).length,
      (((placedChildrenOf focus side).get i).x - side / 2) ^ 2 +
          (((placedChildrenOf focus side).get i).y - side / 2) ^ 2 =
        ringROf focus side ^ 2 ∧
      rParentOf side + ((placedChildrenOf focus side).get i).r + 28 ≤
        ringROf focus side) ∧
    (∀ i j : Fin (placedChildrenOf focus side).length, (i : ℕ) < (j : ℕ) →
      ((placedChildrenOf focus side).get i).r +
          ((placedChildrenOf focus side).get j).r + gapCOf side ≤
        ringROf focus side *
          (((placedChildrenOf focus side).get j).angle -
            ((placedChildrenOf focus side).get i).angle)) := by
  constructor
  · intro i
    have hc := placedChildrenOf_clen focus side i
    obtain ⟨hang, hr, hx, hy, hdata⟩ := placedChildrenOf_get focus side i hc
    constructor
    · rw [hx, hy]
      have hpyth := Real.sin_sq_add_cos_sq (((placedChildrenOf focus side).get i).angle)
      ring_nf
      nlinarith [hpyth]
    · rw [hr]
      have hmem : (childInfoOf focus side).get ⟨i, hc⟩ ∈ childInfoOf focus side :=
        List.get_mem _ _ hc
      have hmax := mem_le_foldl_max (childInfoOf focus side) 0 _ hmem
      have hbase : baseRingOf focus side ≤ ringROf focus side := le_max_left _ _
      unfold baseRingOf maxChildROf at *
      linarith
  · intro i j hij
    have hci := placedChildrenOf_clen focus side i
    have hcj := placedChildrenOf_clen focus side j
    obtain ⟨hangi, hri, _, _, _⟩ := placedChildrenOf_get focus side i hci
    obtain ⟨hangj, hrj, _, _, _⟩ := placedChildrenOf_get focus side j hcj
    rw [hangi, hangj, hri, hrj]
    set di := deltaOf (ringCircOf focus side) (gapCOf side)
      ((childInfoOf focus side).get ⟨i, hci⟩) with hdi
    set dj := deltaOf (ringCircOf focus side) (gapCOf side)
      ((childInfoOf focus side).get ⟨j, hcj⟩) with hdj
    set Si := sumDeltas (ringCircOf focus side) (gapCOf side)
      ((childInfoOf focus side).take i) with hSi
    set Sj := sumDeltas (ringCircOf focus side) (gapCOf side)
      ((childInfoOf focus side).take j) with hSj
    have hmono : Si + di ≤ Sj := by
      have hstep : sumDeltas (ringCircOf focus side) (gapCOf side)
          ((childInfoOf focus side).take ((i : ℕ) + 1)) = Si + di := by
        rw [hSi, hdi]
        exact sumDeltas_take_succ _ _ _ _ hci
      have hm := sumDeltas_take_mono (ringCircOf focus side) (gapCOf side)
        (childInfoOf focus side) (deltaOf_nonneg focus side hside)
        (show (i : ℕ) + 1 ≤ (j : ℕ) from hij)
      have hm2 : sumDeltas (ringCircOf focus side) (gapCOf side)
          ((childInfoOf focus side).take ((i : ℕ) + 1)) ≤ Sj := hm
      rw [hstep] at hm2
      exact hm2
    have hRdi := ringR_mul_delta focus side ((childInfoOf focus side).get ⟨i, hci⟩)
    have hRdj := ringR_mul_delta focus side ((childInfoOf focus side).get ⟨j, hcj⟩)
    rw [← hdi] at hRdi
    rw [← hdj] at hRdj
    have hR0 : (0 : ℝ) ≤ ringROf focus side := (ringROf_pos focus side).le
    have hmul := mul_le_mul_of_nonneg_left hmono hR0
    nlinarith [hmul, hRdi, hRdj]

/-- Witness for C2 amended at a two-child focus and side 600. -/
theorem C2_ring_separation_witness :
    (0 : ℝ) ≤ 600 ∧
    ((∀ i : Fin (placedChildrenOf (TreeNode.mk "F" none none none none
        [.mk "a" none none none none [], .mk "b" none none none none []]) 600).length,
      (((placedChildrenOf (TreeNode.mk "F" none none none none
          [.mk "a" none none none none [], .mk "b" none none none none []]) 600).get i).x -
            600 / 2) ^ 2 +
          (((placedChildrenOf (TreeNode.mk "F" none none none none
          [.mk "a" none none none none [], .mk "b" none none none none []]) 600).get i).y -
            600 / 2) ^ 2 =
        ringROf (TreeNode.mk "F" none none none none
          [.mk "a" none none none none [], .mk "b" none none none none []]) 600 ^ 2 ∧
      rParentOf 600 + ((placedChildrenOf (TreeNode.mk "F" none none none none
          [.mk "a" none none none none [], .mk "b" none none none none []]) 600).get i).r +
          28 ≤
        ringROf (TreeNode.mk "F" none none none none
          [.mk "a" none none none none [], .mk "b" none none none none []]) 600) ∧
    (∀ i j : Fin (placedChildrenOf (TreeNode.mk "F" none none none none
        [.mk "a" none none none none [], .mk "b" none none none none []]) 600).length,
        (i : ℕ) < (j : ℕ) →
      ((placedChildrenOf (TreeNode.mk "F" none none none none
          [.mk "a" none none none none [], .mk "b" none none none none []]) 600).get i).r +
          ((placedChildrenOf (TreeNode.mk "F" none none none none
          [.mk "a" none none none none [], .mk "b" none none none none []]) 600).get j).r +
          gapCOf 600 ≤
        ringROf (TreeNode.mk "F" none none none none
          [.mk "a" none none none none [], .mk "b" none none none none []]) 600 *
          (((placedChildrenOf (TreeNode.mk "F" none none none none
            [.mk "a" none none none none [], .mk "b" none none none none []]) 600).get j).angle -
            ((placedChildrenOf (TreeNode.mk "F" none none none none
            [.mk "a" none none none none [], .mk "b" none none none none []]) 600).get i).angle))) :=
  ⟨by norm_num,
    C2_ring_separation (TreeNode.mk "F" none none none none
      [.mk "a" none none none none [], .mk "b" none none none none []]) 600 (by norm_num)⟩

/-! ### C3: grandchildren sit on the outward arc -/

theorem grandsFor_eq (placed : List ChildPlaced) (side : ℝ) (ch : ChildPlaced)
    (hN : ch.data.children.length ≠ 0) :
    grandsFor placed side ch = ch.data.children.enum.map (fun p =>
      ⟨ch.id ++ "::" ++ p.2.name, p.2.name, 2, p.2, rGOf placed side ch,
        ch.x + ringGOf placed side ch *
          Real.cos ((ch.angle - ((ch.data.children.length : ℝ) - 1) *
              stepThetaOf placed side ch / 2) + (p.1 : ℝ) * stepThetaOf placed side ch),
        ch.y + ringGOf placed side ch *
          Real.sin ((ch.angle - ((ch.data.children.length : ℝ) - 1) *
              stepThetaOf placed side ch / 2) + (p.1 : ℝ) * stepThetaOf placed side ch),
        some ch.id⟩) := by
  unfold grandsFor
  rw [if_neg hN]

theorem grandsFor_get (placed : List ChildPlaced) (side : ℝ) (ch : ChildPlaced)
    (j : ℕ) (hj : j < ch.data.children.length)
    (hp : j < (grandsFor placed side ch).length) :
    ((grandsFor placed side ch).get ⟨j, hp⟩).x =
        ch.x + ringGOf placed side ch *
          Real.cos ((ch.angle - ((ch.data.children.length : ℝ) - 1) *
              stepThetaOf placed side ch / 2) + (j : ℝ) * stepThetaOf placed side ch) ∧
    ((grandsFor placed side ch).get ⟨j, hp⟩).y =
        ch.y + ringGOf placed side ch *
          Real.sin ((ch.angle - ((ch.data.children.length : ℝ) - 1) *
              stepThetaOf placed side ch / 2) + (j : ℝ) * stepThetaOf placed side ch) ∧
    ((grandsFor placed side ch).get ⟨j, hp⟩).r = rGOf placed side ch := by
  have hN : ch.data.children.length ≠ 0 := by omega
  have he := grandsFor_eq placed side ch hN
  have h1 := List.get_of_eq he ⟨j, hp⟩
  rw [h1, List.get_map]
  have he2 : ∀ (hh : j < ch.data.children.enum.length),
      ch.data.children.enum.get ⟨j, hh⟩ = (j, ch.data.children.get ⟨j, hj⟩) := by
    intro hh
    rw [List.get_eq_getElem]
    have := List.getElem_enum ch.data.children j
    simp only [List.get_eq_getElem] at *
    rw [this]
  rw [he2]
  exact ⟨rfl, rfl, rfl⟩

theorem two_rG_gapG_pos (placed : List ChildPlaced) (side : ℝ) (ch : ChildPlaced) :
    0 < 2 * rGOf placed side ch + gapGOf side := by
  have h1 := rGOf_ge placed side ch
  have h2 := gapGOf_ge side
  linarith

theorem stepThetaOf_nonneg (placed : List ChildPlaced) (side : ℝ) (ch : ChildPlaced)
    (hN : ch.data.children.length ≠ 0) : 0 ≤ stepThetaOf placed side ch := by
  unfold stepThetaOf
  exact div_nonneg (two_rG_gapG_pos placed side ch).le (ringGOf_pos placed side ch hN).le

theorem stepThetaOf_mul_le (placed : List ChildPlaced) (side : ℝ) (ch : ChildPlaced)
    (hN : ch.data.children.length ≠ 0) :
    (ch.data.children.length : ℝ) * stepThetaOf placed side ch ≤ arcSpanVal := by
  have hmin := ringGminOf_ge_needed placed side ch
  have hpos := ringGminOf_pos placed side ch hN
  unfold stepThetaOf
  rw [ringGOf_eq_ringGmin placed side ch hpos]
  have h1 : (ch.data.children.length : ℝ) * (2 * rGOf placed side ch + gapGOf side) ≤
      arcSpanVal * ringGminOf placed side ch := by
    rw [div_le_iff arcSpanVal_pos] at hmin
    linarith
  have h2 : (ch.data.children.length : ℝ) *
      ((2 * rGOf placed side ch + gapGOf side) / ringGminOf placed side ch) =
      (ch.data.children.length : ℝ) * (2 * rGOf placed side ch + gapGOf side) /
        ringGminOf placed side ch := by
    ring
  rw [h2, div_le_iff hpos]
  linarith

theorem arcSpanVal_half_le : arcSpanVal / 2 ≤ Real.pi / 2 := by
  unfold arcSpanVal
  have := Real.pi_pos
  nlinarith


/-- C3: every tier-2 bubble lies on the outward arc of its owning child:
its position is at an angle around the child within the 150-degree span
centred on the child's own ring angle (the direction from the canvas
centre through the child), its centre is strictly farther from the canvas
centre than the child's centre, and it never lies (weakly) between the
canvas centre and the child's centre. -/
theorem C3_outward_arc (focus : TreeNode) (side : ℝ)
    (i : Fin (placedChildrenOf focus side).length)
    (j : Fin (grandsFor (placedChildrenOf focus side) side ((placedChildrenOf focus side).get i)).length) :
    (∃ thetaJ : ℝ,
      |thetaJ - ((placedChildrenOf focus side).get i).angle| ≤ arcSpanVal / 2 ∧
      ((grandsFor (placedChildrenOf focus side) side ((placedChildrenOf focus side).get i)).get j).x = ((placedChildrenOf focus side).get i).x + (ringGOf (placedChildrenOf focus side) side ((placedChildrenOf focus side).get i)) * Real.cos thetaJ ∧
      ((grandsFor (placedChildrenOf focus side) side ((placedChildrenOf focus side).get i)).get j).y = ((placedChildrenOf focus side).get i).y + (ringGOf (placedChildrenOf focus side) side ((placedChildrenOf focus side).get i)) * Real.sin thetaJ) ∧
    ((((grandsFor (placedChildrenOf focus side) side ((placedChildrenOf focus side).get i)).get j).x - side / 2) ^ 2 + (((grandsFor (placedChildrenOf focus side) side ((placedChildrenOf focus side).get i)).get j).y - side / 2) ^ 2 >
      (((placedChildrenOf focus side).get i).x - side / 2) ^ 2 + (((placedChildrenOf focus side).get i).y - side / 2) ^ 2) ∧
    (∀ t : ℝ, 0 ≤ t → t ≤ 1 →
      ¬(((grandsFor (placedChildrenOf focus side) side ((placedChildrenOf focus side).get i)).get j).x = side / 2 + t * (((placedChildrenOf focus side).get i).x - side / 2) ∧
        ((grandsFor (placedChildrenOf focus side) side ((placedChildrenOf focus side).get i)).get j).y = side / 2 + t * (((placedChildrenOf focus side).get i).y - side / 2))) := by
  have hlen := grandsFor_length (placedChildrenOf focus side) side ((placedChildrenOf focus side).get i)
  have hj2 := j.2
  have hj : (j : ℕ) < ((placedChildrenOf focus side).get i).data.children.length := by omega
  have hN : ((placedChildrenOf focus side).get i).data.children.length ≠ 0 := by omega
  obtain ⟨hgx0, hgy0, hgr0⟩ :=
    grandsFor_get (placedChildrenOf focus side) side ((placedChildrenOf focus side).get i) (j : ℕ) hj j.2
  have hgx : ((grandsFor (placedChildrenOf focus side) side ((placedChildrenOf focus side).get i)).get j).x = ((placedChildrenOf focus side).get i).x + (ringGOf (placedChildrenOf focus side) side ((placedChildrenOf focus side).get i)) * Real.cos (((placedChildrenOf focus side).get i).angle - ((((placedChildrenOf focus side).get i).data.children.length : ℝ) - 1) * stepThetaOf (placedChildrenOf focus side) side ((placedChildrenOf focus side).get i) / 2 + ((j : ℕ) : ℝ) * stepThetaOf (placedChildrenOf focus side) side ((placedChildrenOf focus side).get i)) := hgx0
  have hgy : ((grandsFor (placedChildrenOf focus side) side ((placedChildrenOf focus side).get i)).get j).y = ((placedChildrenOf focus side).get i).y + (ringGOf (placedChildrenOf focus side) side ((placedChildrenOf focus side).get i)) * Real.sin (((placedChildrenOf focus side).get i).angle - ((((placedChildrenOf focus side).get i).data.children.length : ℝ) - 1) * stepThetaOf (placedChildrenOf focus side) side ((placedChildrenOf focus side).get i) / 2 + ((j : ℕ) : ℝ) * stepThetaOf (placedChildrenOf focus side) side ((placedChildrenOf focus side).get i)) := hgy0
  have hc := placedChildrenOf_clen focus side i
  obtain ⟨hang, hr, hchx, hchy, hdat⟩ := placedChildrenOf_get focus side i hc
  have hs0 : 0 ≤ stepThetaOf (placedChildrenOf focus side) side ((placedChildrenOf focus side).get i) := stepThetaOf_nonneg _ _ _ hN
  have hNs := stepThetaOf_mul_le (placedChildrenOf focus side) side ((placedChildrenOf focus side).get i) hN
  have hjN : ((j : ℕ) : ℝ) ≤ (((placedChildrenOf focus side).get i).data.children.length : ℝ) - 1 := by
    have h1 : (j : ℕ) + 1 ≤ ((placedChildrenOf focus side).get i).data.children.length := hj
    have h2 := (Nat.cast_le (α := ℝ)).mpr h1
    push_cast at h2
    linarith
  have hN1 : (1 : ℝ) ≤ (((placedChildrenOf focus side).get i).data.children.length : ℝ) := by
    have h1 : 1 ≤ ((placedChildrenOf focus side).get i).data.children.length := Nat.one_le_iff_ne_zero.mpr hN
    exact_mod_cast h1
  have hspan : |(((placedChildrenOf focus side).get i).angle - ((((placedChildrenOf focus side).get i).data.children.length : ℝ) - 1) * stepThetaOf (placedChildrenOf focus side) side ((placedChildrenOf focus side).get i) / 2 + ((j : ℕ) : ℝ) * stepThetaOf (placedChildrenOf focus side) side ((placedChildrenOf focus side).get i)) - ((placedChildrenOf focus side).get i).angle| ≤ arcSpanVal / 2 := by
    rw [abs_le]
    have hj0 : (0 : ℝ) ≤ ((j : ℕ) : ℝ) := Nat.cast_nonneg _
    have hjs : ((j : ℕ) : ℝ) * stepThetaOf (placedChildrenOf focus side) side ((placedChildrenOf focus side).get i) ≤
        ((((placedChildrenOf focus side).get i).data.children.length : ℝ) - 1) * stepThetaOf (placedChildrenOf focus side) side ((placedChildrenOf focus side).get i) :=
      mul_le_mul_of_nonneg_right hjN hs0
    have hjs0 : 0 ≤ ((j : ℕ) : ℝ) * stepThetaOf (placedChildrenOf focus side) side ((placedChildrenOf focus side).get i) := mul_nonneg hj0 hs0
    have hA : ((((placedChildrenOf focus side).get i).data.children.length : ℝ) - 1) * stepThetaOf (placedChildrenOf focus side) side ((placedChildrenOf focus side).get i) ≤ arcSpanVal := by
      nlinarith
    constructor
    · nlinarith
    · nlinarith
  have hsh := arcSpanVal_half_le
  have hcos : 0 ≤ Real.cos ((((placedChildrenOf focus side).get i).angle - ((((placedChildrenOf focus side).get i).data.children.length : ℝ) - 1) * stepThetaOf (placedChildrenOf focus side) side ((placedChildrenOf focus side).get i) / 2 + ((j : ℕ) : ℝ) * stepThetaOf (placedChildrenOf focus side) side ((placedChildrenOf focus side).get i)) - ((placedChildrenOf focus side).get i).angle) := by
    apply Real.cos_nonneg_of_mem_Icc
    rw [Set.mem_Icc]
    rw [abs_le] at hspan
    exact ⟨by linarith [hspan.1], by linarith [hspan.2]⟩
  have s1 := Real.sin_sq_add_cos_sq (((placedChildrenOf focus side).get i).angle - ((((placedChildrenOf focus side).get i).data.children.length : ℝ) - 1) * stepThetaOf (placedChildrenOf focus side) side ((placedChildrenOf focus side).get i) / 2 + ((j : ℕ) : ℝ) * stepThetaOf (placedChildrenOf focus side) side ((placedChildrenOf focus side).get i))
  have s2 := Real.sin_sq_add_cos_sq (((placedChildrenOf focus side).get i).angle)
  have hch2 : (((placedChildrenOf focus side).get i).x - side / 2) ^ 2 + (((placedChildrenOf focus side).get i).y - side / 2) ^ 2 = (ringROf focus side) ^ 2 := by
    rw [hchx, hchy]
    linear_combination ((ringROf focus side) ^ 2) * s2
  have hgeom : (((grandsFor (placedChildrenOf focus side) side ((placedChildrenOf focus side).get i)).get j).x - side / 2) ^ 2 + (((grandsFor (placedChildrenOf focus side) side ((placedChildrenOf focus side).get i)).get j).y - side / 2) ^ 2 =
      (ringROf focus side) ^ 2 + (ringGOf (placedChildrenOf focus side) side ((placedChildrenOf focus side).get i)) ^ 2 +
        2 * (ringROf focus side) * (ringGOf (placedChildrenOf focus side) side ((placedChildrenOf focus side).get i)) * Real.cos ((((placedChildrenOf focus side).get i).angle - ((((placedChildrenOf focus side).get i).data.children.length : ℝ) - 1) * stepThetaOf (placedChildrenOf focus side) side ((placedChildrenOf focus side).get i) / 2 + ((j : ℕ) : ℝ) * stepThetaOf (placedChildrenOf focus side) side ((placedChildrenOf focus side).get i)) - ((placedChildrenOf focus side).get i).angle) := by
    rw [hgx, hgy, hchx, hchy]
    linear_combination ((ringROf focus side) ^ 2) * s2 + ((ringGOf (placedChildrenOf focus side) side ((placedChildrenOf focus side).get i)) ^ 2) * s1 -
      (2 * (ringROf focus side) * (ringGOf (placedChildrenOf focus side) side ((placedChildrenOf focus side).get i))) * (Real.cos_sub (((placedChildrenOf focus side).get i).angle - ((((placedChildrenOf focus side).get i).data.children.length : ℝ) - 1) * stepThetaOf (placedChildrenOf focus side) side ((placedChildrenOf focus side).get i) / 2 + ((j : ℕ) : ℝ) * stepThetaOf (placedChildrenOf focus side) side ((placedChildrenOf focus side).get i)) (((placedChildrenOf focus side).get i).angle))
  have hrho0 : 0 < (ringGOf (placedChildrenOf focus side) side ((placedChildrenOf focus side).get i)) := ringGOf_pos _ _ _ hN
  have hR0 : 0 < (ringROf focus side) := ringROf_pos focus side
  have hfar : (((grandsFor (placedChildrenOf focus side) side ((placedChildrenOf focus side).get i)).get j).x - side / 2) ^ 2 + (((grandsFor (placedChildrenOf focus side) side ((placedChildrenOf focus side).get i)).get j).y - side / 2) ^ 2 >
      (((placedChildrenOf focus side).get i).x - side / 2) ^ 2 + (((placedChildrenOf focus side).get i).y - side / 2) ^ 2 := by
    rw [hgeom, hch2]
    have hsq : 0 < (ringGOf (placedChildrenOf focus side) side ((placedChildrenOf focus side).get i)) ^ 2 := pow_pos hrho0 2
    have hprod : 0 ≤ 2 * (ringROf focus side) * (ringGOf (placedChildrenOf focus side) side ((placedChildrenOf focus side).get i)) * Real.cos ((((placedChildrenOf focus side).get i).angle - ((((placedChildrenOf focus side).get i).data.children.length : ℝ) - 1) * stepThetaOf (placedChildrenOf focus side) side ((placedChildrenOf focus side).get i) / 2 + ((j : ℕ) : ℝ) * stepThetaOf (placedChildrenOf focus side) side ((placedChildrenOf focus side).get i)) - ((placedChildrenOf focus side).get i).angle) :=
      mul_nonneg (mul_nonneg (mul_nonneg (by norm_num : (0 : ℝ) ≤ 2) hR0.le) hrho0.le) hcos
    linarith
  refine ⟨⟨(((placedChildrenOf focus side).get i).angle - ((((placedChildrenOf focus side).get i).data.children.length : ℝ) - 1) * stepThetaOf (placedChildrenOf focus side) side ((placedChildrenOf focus side).get i) / 2 + ((j : ℕ) : ℝ) * stepThetaOf (placedChildrenOf focus side) side ((placedChildrenOf focus side).get i)), hspan, hgx, hgy⟩, hfar, ?_⟩
  intro t ht0 ht1 hand
  obtain ⟨he1, he2⟩ := hand
  have habs : (((grandsFor (placedChildrenOf focus side) side ((placedChildrenOf focus side).get i)).get j).x - side / 2) ^ 2 + (((grandsFor (placedChildrenOf focus side) side ((placedChildrenOf focus side).get i)).get j).y - side / 2) ^ 2 =
      t ^ 2 * ((((placedChildrenOf focus side).get i).x - side / 2) ^ 2 + (((placedChildrenOf focus side).get i).y - side / 2) ^ 2) := by
    rw [he1, he2]
    ring
  rw [hch2] at hfar habs
  have ht2 : t ^ 2 ≤ 1 := by nlinarith
  have hR2 : 0 < (ringROf focus side) ^ 2 := pow_pos hR0 2
  nlinarith [habs, hfar, ht2, hR2]

/-! ### C2 counterexample: two fat children overlap -/

/-- A child with 12 grandchildren: its radius reaches the `0.12 * side`
cap. -/
def c2Child : TreeNode :=
  .mk "c" none none none none (List.replicate 12 (.mk "g" none none none none []))

/-- A focus with two such children, packed on a 10000-pixel canvas. -/
def c2Focus : TreeNode := .mk "F" none none none none [c2Child, c2Child]

/-- Fallback bubble for `List.getD`. -/
def c2Default : ChildPlaced :=
  ⟨⟨"", "", 0, .mk "" none none none none [], 0, 0, 0, none⟩, 0⟩

/-- The `k`-th tier-1 bubble of the counterexample layout. -/
noncomputable def c2bubble (k : ℕ) : ChildPlaced :=
  (placedChildrenOf c2Focus 10000).getD k c2Default

theorem c2_childInfo : childInfoOf c2Focus 10000 =
    [⟨c2Child, 1200, 12⟩, ⟨c2Child, 1200, 12⟩] := by
  unfold childInfoOf c2Focus
  show List.map _ [c2Child, c2Child] = _
  simp only [List.map_cons, List.map_nil]
  have hlen : c2Child.children.length = 12 := by
    unfold c2Child
    show (List.replicate 12 (TreeNode.mk "g" none none none none [])).length = 12
    rw [List.length_replicate]
  rw [hlen]
  have hr : clamp (10000 * 0.06 + (12 : ℕ) * (10000 * 0.005)) (10000 * 0.05)
      (10000 * 0.12) = 1200 := by
    unfold clamp
    norm_num [min_def, max_def]
  rw [hr]

theorem c2_gapC : gapCOf 10000 = 16 := by
  unfold gapCOf clamp
  norm_num [min_def, max_def]

theorem c2_ringR : ringROf c2Focus 10000 = 1348 := by
  have hmax : maxChildROf c2Focus 10000 = 1200 := by
    unfold maxChildROf
    rw [c2_childInfo]
    show max (max 0 (1200 : ℝ)) 1200 = 1200
    norm_num [max_def]
  have hrp : rParentOf 10000 = 120 := by
    unfold rParentOf clamp
    norm_num [min_def, max_def]
  have hcn : circumferenceNeededOf c2Focus 10000 = 4832 := by
    unfold circumferenceNeededOf
    rw [c2_childInfo]
    show 0 + (2 * (1200 : ℝ) + gapCOf 10000) + (2 * 1200 + gapCOf 10000) = 4832
    rw [c2_gapC]
    norm_num
  unfold ringROf baseRingOf
  rw [hmax, hrp, hcn]
  have hple : (4832 : ℝ) / (2 * Real.pi) ≤ 120 + 1200 + 28 := by
    rw [div_le_iff₀ (by positivity)]
    nlinarith [Real.pi_gt_three]
  rw [max_eq_left hple]
  norm_num

theorem c2_len : (placedChildrenOf c2Focus 10000).length = 2 := by
  rw [placedChildrenOf_length]
  rfl

theorem c2_delta : deltaOf (ringCircOf c2Focus 10000) (gapCOf 10000)
    (⟨c2Child, 1200, 12⟩ : ChildInfo) = 2416 / 1348 := by
  unfold deltaOf ringCircOf
  rw [c2_ringR, c2_gapC]
  have hpi := Real.pi_ne_zero
  show (2 * 1200 + 16) / (2 * Real.pi * 1348) * (2 * Real.pi) = 2416 / 1348
  field_simp
  ring

/-- Counterexample to C2 as stated: on a 10000-pixel canvas, a focus with
two children of 12 grandchildren each places the two tier-1 bubbles
(radius 1200 each) with squared centre distance strictly below the square
of the radius sum - the two child bubbles overlap (by about 12 percent of
the radius sum). -/
theorem C2_counterexample :
    (placedChildrenOf c2Focus 10000).length = 2 ∧
    (c2bubble 0).r = 1200 ∧ (c2bubble 1).r = 1200 ∧
    ((c2bubble 0).x - (c2bubble 1).x) ^ 2 + ((c2bubble 0).y - (c2bubble 1).y) ^ 2 <
      ((c2bubble 0).r + (c2bubble 1).r) ^ 2 := by
  have hp0 : 0 < (placedChildrenOf c2Focus 10000).length := by rw [c2_len]; norm_num
  have hp1 : 1 < (placedChildrenOf c2Focus 10000).length := by rw [c2_len]; norm_num
  have hb0 : c2bubble 0 = (placedChildrenOf c2Focus 10000).get ⟨0, hp0⟩ := by
    unfold c2bubble
    rw [List.getD_eq_getElem _ _ hp0]
    rfl
  have hb1 : c2bubble 1 = (placedChildrenOf c2Focus 10000).get ⟨1, hp1⟩ := by
    unfold c2bubble
    rw [List.getD_eq_getElem _ _ hp1]
    rfl
  have hc0 : ((⟨0, hp0⟩ : Fin (placedChildrenOf c2Focus 10000).length) : ℕ) <
      (childInfoOf c2Focus 10000).length := placedChildrenOf_clen c2Focus 10000 ⟨0, hp0⟩
  have hc1 : ((⟨1, hp1⟩ : Fin (placedChildrenOf c2Focus 10000).length) : ℕ) <
      (childInfoOf c2Focus 10000).length := placedChildrenOf_clen c2Focus 10000 ⟨1, hp1⟩
  obtain ⟨hang0, hr0, hx0, hy0, _⟩ := placedChildrenOf_get c2Focus 10000 ⟨0, hp0⟩ hc0
  obtain ⟨hang1, hr1, hx1, hy1, _⟩ := placedChildrenOf_get c2Focus 10000 ⟨1, hp1⟩ hc1
  have hge0 : (childInfoOf c2Focus 10000).get ⟨(0 : ℕ), hc0⟩ = ⟨c2Child, 1200, 12⟩ := by
    rw [List.get_of_eq c2_childInfo]
    rfl
  have hge1 : (childInfoOf c2Focus 10000).get ⟨(1 : ℕ), hc1⟩ = ⟨c2Child, 1200, 12⟩ := by
    rw [List.get_of_eq c2_childInfo]
    rfl
  rw [hge0] at hang0 hr0
  rw [hge1] at hang1 hr1
  have htake0 : (childInfoOf c2Focus 10000).take 0 = [] := rfl
  have htake1 : (childInfoOf c2Focus 10000).take 1 = [⟨c2Child, 1200, 12⟩] := by
    rw [c2_childInfo]
    rfl
  have hsum0 : sumDeltas (ringCircOf c2Focus 10000) (gapCOf 10000)
      ((childInfoOf c2Focus 10000).take 0) = 0 := by
    rw [htake0]
    unfold sumDeltas
    simp
  have hsum1 : sumDeltas (ringCircOf c2Focus 10000) (gapCOf 10000)
      ((childInfoOf c2Focus 10000).take 1) = 2416 / 1348 := by
    rw [htake1]
    unfold sumDeltas
    simp only [List.map_cons, List.map_nil, List.sum_cons, List.sum_nil, add_zero]
    exact c2_delta
  rw [hsum0, c2_delta] at hang0
  rw [hsum1, c2_delta] at hang1
  have hA0 : ((placedChildrenOf c2Focus 10000).get ⟨0, hp0⟩).angle = 1208 / 1348 := by
    rw [hang0]
    norm_num
  have hA1 : ((placedChildrenOf c2Focus 10000).get ⟨1, hp1⟩).angle = 3624 / 1348 := by
    rw [hang1]
    norm_num
  rw [hA0] at hx0 hy0
  rw [hA1] at hx1 hy1
  rw [c2_ringR] at hx0 hy0 hx1 hy1
  refine ⟨c2_len, by rw [hb0, hr0], by rw [hb1, hr1], ?_⟩
  rw [hb0, hb1, hr0, hr1, hx0, hy0, hx1, hy1]
  have s0 := Real.sin_sq_add_cos_sq ((1208 : ℝ) / 1348)
  have s1 := Real.sin_sq_add_cos_sq ((3624 : ℝ) / 1348)
  have hkey : (10000 / 2 + 1348 * Real.cos (1208 / 1348) -
        (10000 / 2 + 1348 * Real.cos (3624 / 1348))) ^ 2 +
      (10000 / 2 + 1348 * Real.sin (1208 / 1348) -
        (10000 / 2 + 1348 * Real.sin (3624 / 1348))) ^ 2 =
      2 * 1348 ^ 2 - 2 * 1348 ^ 2 *
        Real.cos ((1208 : ℝ) / 1348 - 3624 / 1348) := by
    linear_combination (1348 : ℝ) ^ 2 * s0 + (1348 : ℝ) ^ 2 * s1 +
      2 * (1348 : ℝ) ^ 2 * (Real.cos_sub ((1208 : ℝ) / 1348) ((3624 : ℝ) / 1348))
  rw [hkey]
  have hneg : ((1208 : ℝ) / 1348 - 3624 / 1348) = -(2416 / 1348) := by norm_num
  rw [hneg, Real.cos_neg]
  have htwo : ((2416 : ℝ) / 1348) = 2 * (1208 / 1348) := by norm_num
  rw [htwo, Real.cos_two_mul']
  have spy := Real.sin_sq_add_cos_sq ((1208 : ℝ) / 1348)
  have hsin_up : Real.sin ((1208 : ℝ) / 1348) < 2400 / 2696 := by
    have habs : |(1208 : ℝ) / 1348| ≤ 1 := by
      rw [abs_of_nonneg (by norm_num : (0 : ℝ) ≤ 1208 / 1348)]
      norm_num
    have h1 := Real.sin_bound habs
    rw [abs_of_nonneg (by norm_num : (0 : ℝ) ≤ 1208 / 1348)] at h1
    rw [abs_le] at h1
    have h2 : Real.sin ((1208 : ℝ) / 1348) ≤
        1208 / 1348 - (1208 / 1348) ^ 3 / 6 + (1208 / 1348) ^ 4 * (5 / 96) := by
      linarith [h1.2]
    have h3 : (1208 : ℝ) / 1348 - (1208 / 1348) ^ 3 / 6 + (1208 / 1348) ^ 4 * (5 / 96) <
        2400 / 2696 := by norm_num
    linarith
  have hsin_nn : 0 ≤ Real.sin ((1208 : ℝ) / 1348) := by
    apply Real.sin_nonneg_of_nonneg_of_le_pi
    · norm_num
    · nlinarith [Real.pi_gt_three]
  have hsq : Real.sin ((1208 : ℝ) / 1348) ^ 2 < (2400 / 2696) ^ 2 := by
    exact pow_lt_pow_left₀ hsin_up hsin_nn (by norm_num)
  nlinarith [hsq, spy]
